import Mathlib

/-!
Verification of the Intern-Hunter frontend core:
the preview-resolution pipeline, the line-level noise classifier,
the upload transfer contract, the feedback-history grouping, and the
object-URL lifecycle, shallowly embedded from the TypeScript source
(`src/Frontend/src/pages/ResumePage.tsx`, `src/Frontend/src/lib/api.ts`,
`src/Frontend/src/pages/ResumeFeedback.tsx`).

JavaScript strings are modelled as lists of characters (`Str`); each
embedded function mirrors the corresponding source function line by line.
-/

namespace InternHunter

/-- JavaScript strings modelled as lists of Unicode scalar values. -/
abbrev Str := List Char

/-- Literal helper: the character list of a Lean string literal. -/
def strOf (s : String) : Str := s.data

/-- The newline character used by `split` and by `join` in the source. -/
def nlChar : Char := Char.ofNat 10

/-- The carriage-return character normalized away by `replace(/\r\n?/g, n)`. -/
def crChar : Char := Char.ofNat 13

/-- The apostrophe character (used by the extended-filename marker). -/
def aposChar : Char := Char.ofNat 39

/-- Whitespace recognized by JavaScript trim and by the regex class \s
(space, tab, LF, CR, vertical tab, form feed, NBSP, BOM). -/
def isWS (c : Char) : Bool :=
  c = Char.ofNat 32 || c = Char.ofNat 9 || c = Char.ofNat 10 || c = Char.ofNat 13 ||
  c = Char.ofNat 11 || c = Char.ofNat 12 || c = Char.ofNat 160 || c = Char.ofNat 65279

/-- The regex class [a-zA-Z]. -/
def isAsciiAlpha (c : Char) : Bool :=
  (Char.ofNat 97 ≤ c && c ≤ Char.ofNat 122) || (Char.ofNat 65 ≤ c && c ≤ Char.ofNat 90)

/-- The regex class [0-9]. -/
def isAsciiDigit (c : Char) : Bool :=
  Char.ofNat 48 ≤ c && c ≤ Char.ofNat 57

/-- The regex class [^a-zA-Z0-9\s] counted as a symbol by the classifier. -/
def isSymbolChar (c : Char) : Bool :=
  !(isAsciiAlpha c || isAsciiDigit c || isWS c)

/-- ASCII lower-casing as performed by `toLowerCase` on the characters that
occur in the classifier's markers and filename extensions. -/
def lowerChar (c : Char) : Char :=
  if Char.ofNat 65 ≤ c && c ≤ Char.ofNat 90 then Char.ofNat (c.toNat + 32) else c

/-- `String.prototype.toLowerCase`. -/
def lowerStr (s : Str) : Str := s.map lowerChar

/-- `hay.includes(needle)`: substring containment. -/
def strIncludes (hay needle : Str) : Bool :=
  match hay with
  | [] => needle.isEmpty
  | _ :: t => needle.isPrefixOf hay || strIncludes t needle

/-- `s.endsWith(suffix)`. -/
def strEndsWith (s suffix : Str) : Bool := suffix.isSuffixOf s

/-- `String.prototype.trimEnd`. -/
def trimEnd (s : Str) : Str := (s.reverse.dropWhile isWS).reverse

/-- Leading-whitespace removal (first half of `String.prototype.trim`). -/
def trimStart (s : Str) : Str := s.dropWhile isWS

/-- `String.prototype.trim`. -/
def trimBoth (s : Str) : Str := trimEnd (trimStart s)

/-- `value.replace(/\r\n?/g, newline)` from `cleanExtractedPreview`. -/
def normalizeNewlines : Str → Str
  | [] => []
  | [c] => if c = crChar then [nlChar] else [c]
  | c :: c2 :: rest =>
    if c = crChar then
      if c2 = nlChar then nlChar :: normalizeNewlines rest
      else nlChar :: normalizeNewlines (c2 :: rest)
    else c :: normalizeNewlines (c2 :: rest)

/-- `s.split(newline)`. -/
def splitOnNl : Str → List Str
  | [] => [[]]
  | c :: rest =>
    let ps := splitOnNl rest
    if c = nlChar then [] :: ps
    else
      match ps with
      | [] => [[c]]
      | p :: t => (c :: p) :: t

/-- The fixed hard-noise marker list from `cleanExtractedPreview`
(ResumePage.tsx lines 25-33). -/
def hardNoiseMarkers : List Str :=
  [strOf "<?xml",
   strOf "schemas.openxmlformats.org",
   strOf "[content_types].xml",
   strOf "_rels/.rels",
   strOf "word/_rels/",
   strOf "theme/theme",
   strOf "docprops/"]

/-- `hardNoiseMarkers.some(marker => lowered.includes(marker))`. -/
def hasHardNoise (trimmed : Str) : Bool :=
  hardNoiseMarkers.any (fun m => strIncludes (lowerStr trimmed) m)

/-- The regex class [A-Za-z0-9+/=] of the base64-blob test. -/
def isB64Char (c : Char) : Bool :=
  isAsciiAlpha c || isAsciiDigit c || c = '+' || c = '/' || c = '='

/-- The heading body class [A-Z\s/&-]. -/
def isHeadingBodyChar (c : Char) : Bool :=
  (Char.ofNat 65 ≤ c && c ≤ Char.ofNat 90) || isWS c || c = '/' || c = '&' || c = '-'

/-- The all-caps heading pattern `/^[A-Z][A-Z\s/&-]{2,}$/`. -/
def isHeadingLike (t : Str) : Bool :=
  match t with
  | [] => false
  | c :: rest =>
    (Char.ofNat 65 ≤ c && c ≤ Char.ofNat 90) && decide (2 ≤ rest.length) &&
      rest.all isHeadingBodyChar

/-- The token-quality rejection applied to a trimmed, non-blank,
non-hard-noise line (ResumePage.tsx lines 47-57).  `true` means the line is
skipped.  The symbol-density test `symbolCount > trimmed.length * 0.38` is
expressed exactly over the rationals as `symbolCount * 50 > length * 19`. -/
def rejectsLine (t : Str) : Bool :=
  let alphaCount := t.countP (fun c => isAsciiAlpha c)
  let symbolCount := t.countP (fun c => isSymbolChar c)
  let hasSpaces := t.any isWS
  let looksEncoded := decide (14 ≤ t.length) && t.all isB64Char
  let isShortToken := !hasSpaces && decide (t.length ≤ 6)
  let isMostlySymbols := decide (t.length * 19 < symbolCount * 50)
  if looksEncoded || isShortToken || isMostlySymbols || decide (alphaCount < 2) then true
  else !hasSpaces && !isHeadingLike t && decide (t.length < 10)

/-- The accepted-line loop of `cleanExtractedPreview` (lines 36-60),
including the early termination once 12 lines are already accepted. -/
def cleanLoop : List Str → List Str → List Str
  | [], acc => acc
  | line :: rest, acc =>
    let t := trimBoth line
    if t.isEmpty then cleanLoop rest acc
    else if hasHardNoise t then
      if 12 ≤ acc.length then acc else cleanLoop rest acc
    else if rejectsLine t then cleanLoop rest acc
    else cleanLoop rest (acc ++ [t])

/-- `cleaned.join(newline)`. -/
def joinNl : List Str → Str
  | [] => []
  | [x] => x
  | x :: y :: rest => x ++ nlChar :: joinNl (y :: rest)

/-- `cleanExtractedPreview` (ResumePage.tsx lines 19-63): the Noise
Classifier.  `none` models both a nullish argument and the `|| null`
result on an empty join; the JavaScript falsiness of the empty string is
modelled by the `isEmpty` guards. -/
def cleanExtractedPreview (value : Option Str) : Option Str :=
  match value with
  | none => none
  | some v =>
    if v.isEmpty then none
    else
      let normalized := normalizeNewlines v
      let rawLines := (splitOnNl normalized).map trimEnd
      let cleaned := cleanLoop rawLines []
      let joined := joinNl cleaned
      if joined.isEmpty then none else some joined

/-! ### Lexicographic string comparison

`String.prototype.localeCompare` on the ISO-8601 timestamps used by the
feedback endpoints coincides with code-unit lexicographic comparison; it is
modelled by `strLe`. -/

/-- Lexicographic (code-unit) order on strings: `a` sorts no later than `b`. -/
def strLe : Str → Str → Bool
  | [], _ => true
  | _ :: _, [] => false
  | a :: as, b :: bs =>
    if a < b then true
    else if b < a then false
    else strLe as bs

/-! ### Preview Resolver (`loadResumePreview`, ResumePage.tsx lines 94-167,
displayed through `ResumePreview`) -/

/-- The read-only snapshot of a stored document used by the resolver
(`ResumeDetail` in api.ts, restricted to the fields the resolver reads). -/
structure ResumeDetailM where
  original_filename : Str
  content_type : Option Str
  extracted_text : Option Str
deriving DecidableEq

/-- Result of a successful `downloadResumePreviewFile` call: the headers the
resolver inspects. -/
structure PreviewRespM where
  contentType : Option Str
  filename : Str
deriving DecidableEq

/-- The displayable artifact finally shown by `ResumePreview`: exactly one of
an embedded PDF stream, converted rich-text markup, a cleaned plain excerpt,
or an unavailable state carrying the user-facing message. -/
inductive RenderArtifact where
  | PdfStream : RenderArtifact
  | RichTextMarkup : Str → RenderArtifact
  | PlainExcerpt : Str → RenderArtifact
  | Unavailable : Str → RenderArtifact
deriving DecidableEq

/-- `detail.content_type?.includes(pdf) || detail.original_filename
.toLowerCase().endsWith(dotPdf)` (ResumePage.tsx line 102). -/
def isPdfDoc (d : ResumeDetailM) : Bool :=
  (match d.content_type with
   | some ct => strIncludes ct (strOf "pdf")
   | none => false) ||
  strEndsWith (lowerStr d.original_filename) (strOf ".pdf")

/-- `previewResponse.contentType?.includes(pdf) || previewResponse.filename
.toLowerCase().endsWith(dotPdf)` (lines 117-118). -/
def previewIsPdf (p : PreviewRespM) : Bool :=
  (match p.contentType with
   | some ct => strIncludes ct (strOf "pdf")
   | none => false) ||
  strEndsWith (lowerStr p.filename) (strOf ".pdf")

/-- JavaScript truthiness of the nullable `detail.extracted_text`. -/
def textTruthy : Option Str → Bool
  | some s => !s.isEmpty
  | none => false

/-- The user-facing message shown when a Word file has no inline preview
(ResumePage.tsx lines 154-156). -/
def wordUnavailableMsg : Str :=
  strOf "Inline preview is unavailable for this Word file. Use Download File to open it in Microsoft Word."

/-- The artifact displayed once the resolver fell through to extracted text:
`ResumePreview` shows the cleaned excerpt when it is non-null, else the
empty-preview message computed at lines 150-158. -/
def fallbackArtifact (d : ResumeDetailM) : RenderArtifact :=
  match cleanExtractedPreview d.extracted_text with
  | some t => .PlainExcerpt t
  | none => .Unavailable (if textTruthy d.extracted_text then [] else wordUnavailableMsg)

/-- The mammoth step of the chain (lines 133-158): `conv` is `none` when the
binary fetch or the conversion threw, and `some value` carries the nullable
`result.value`; the stored markup is `result.value?.trim()`. -/
def convArtifact (d : ResumeDetailM) (conv : Option (Option Str)) : RenderArtifact :=
  match conv with
  | some (some v) =>
    if (trimBoth v).isEmpty then fallbackArtifact d else .RichTextMarkup (trimBoth v)
  | some none => fallbackArtifact d
  | none => fallbackArtifact d

/-- The Preview Resolver on a fresh display slot: `loadResumePreview`
(lines 94-167) combined with the display selection in `ResumePreview`.
`binFetchOk` is the outcome of `downloadResumeFile` in the PDF branch and
`binErrMsg` the friendly message rendered when it throws; `prevFetch` is the
outcome of `downloadResumePreviewFile` (`none` models its catch block); and
`conv` is the mammoth conversion outcome. -/
def resolve (d : ResumeDetailM) (binFetchOk : Bool) (binErrMsg : Str)
    (prevFetch : Option PreviewRespM) (conv : Option (Option Str)) : RenderArtifact :=
  if isPdfDoc d then
    if binFetchOk then .PdfStream else .Unavailable binErrMsg
  else
    match prevFetch with
    | some pr => if previewIsPdf pr then .PdfStream else convArtifact d conv
    | none => convArtifact d conv

/-! ### Transfer Channel (`uploadResumeWithProgress`, api.ts lines 160-204) -/

/-- A JSON value as far as the error-payload inspection looks at it: the
`detail` member is either a string or some other value. -/
inductive JsonDetail where
  | str : Str → JsonDetail
  | other : JsonDetail
deriving DecidableEq

/-- The parsed response body (`xhr.response` with `responseType = json`);
`detail` is the optional `detail` member of the object. -/
structure RespBodyM where
  detail : Option JsonDetail
deriving DecidableEq

/-- The typed error `ApiError` (api.ts lines 13-20). -/
structure ApiErrM where
  status : Nat
  message : Str
deriving DecidableEq

/-- Terminal transport outcome of the upload: either `onload` fired with the
transport status and the (nullable) parsed body, or `onerror` fired. -/
inductive UploadOutcome where
  | onload : Nat → Option RespBodyM → UploadOutcome
  | onerror : UploadOutcome
deriving DecidableEq

/-- The generic fallback message `Upload failed (HTTP n)`. -/
def uploadFailedMsg (status : Nat) : Str :=
  strOf "Upload failed (HTTP " ++ (Nat.repr status).data ++ strOf ")"

/-- Settlement of the upload promise (api.ts lines 182-200): the `onload`
handler resolves on a 2xx status with a truthy body and otherwise rejects
with `ApiError(status or 0, message)`; the `onerror` handler rejects with
status 0 and the fixed network message. -/
def uploadResult (o : UploadOutcome) (statusText : Str) : Except ApiErrM RespBodyM :=
  match o with
  | .onerror => .error ⟨0, strOf "Network error while uploading resume"⟩
  | .onload status resp =>
    match resp with
    | some body =>
      if 200 ≤ status && status < 300 then .ok body
      else
        .error ⟨status,
          match body.detail with
          | some (.str s) => s
          | _ => if statusText.isEmpty then uploadFailedMsg status else statusText⟩
    | none =>
      .error ⟨status, if statusText.isEmpty then uploadFailedMsg status else statusText⟩

/-! ### Filename extraction (`parseFilenameFromContentDisposition` and
`downloadResumeFile`, api.ts lines 210-235) -/

/-- Value of a hexadecimal digit, as used by percent decoding. -/
def hexVal (c : Char) : Option Nat :=
  if isAsciiDigit c then some (c.toNat - 48)
  else if Char.ofNat 97 ≤ c && c ≤ Char.ofNat 102 then some (c.toNat - 87)
  else if Char.ofNat 65 ≤ c && c ≤ Char.ofNat 70 then some (c.toNat - 55)
  else none

/-- Tokenization step of `decodeURIComponent`: every `%` must be followed by
two hex digits and yields a byte token; any other character passes through.
`none` models the thrown `URIError`. -/
def uriTokens : Str → Option (List (Char ⊕ Nat))
  | [] => some []
  | c :: rest =>
    if c = '%' then
      match rest with
      | h1 :: h2 :: rest2 =>
        match hexVal h1, hexVal h2 with
        | some a, some b =>
          match uriTokens rest2 with
          | some ts => some (.inr (16 * a + b) :: ts)
          | none => none
        | _, _ => none
      | _ => none
    else
      match uriTokens rest with
      | some ts => some (.inl c :: ts)
      | none => none

/-- Whether a byte is a UTF-8 continuation byte. -/
def isContByte (b : Nat) : Bool := 128 ≤ b && b < 192

/-- UTF-8 decoding of the byte tokens produced by percent sequences,
rejecting malformed, overlong, surrogate and out-of-range encodings exactly
as `decodeURIComponent` does. -/
def decodeTokens : List (Char ⊕ Nat) → Option Str
  | [] => some []
  | .inl c :: ts =>
    match decodeTokens ts with
    | some s => some (c :: s)
    | none => none
  | .inr b :: ts =>
    if b < 128 then
      match decodeTokens ts with
      | some s => some (Char.ofNat b :: s)
      | none => none
    else if 194 ≤ b && b ≤ 223 then
      match ts with
      | .inr b2 :: ts2 =>
        if isContByte b2 then
          match decodeTokens ts2 with
          | some s => some (Char.ofNat ((b - 192) * 64 + (b2 - 128)) :: s)
          | none => none
        else none
      | _ => none
    else if 224 ≤ b && b ≤ 239 then
      match ts with
      | .inr b2 :: .inr b3 :: ts2 =>
        if isContByte b2 && isContByte b3 then
          let cp := (b - 224) * 4096 + (b2 - 128) * 64 + (b3 - 128)
          if 2048 ≤ cp && !(55296 ≤ cp && cp ≤ 57343) then
            match decodeTokens ts2 with
            | some s => some (Char.ofNat cp :: s)
            | none => none
          else none
        else none
      | _ => none
    else if 240 ≤ b && b ≤ 244 then
      match ts with
      | .inr b2 :: .inr b3 :: .inr b4 :: ts2 =>
        if isContByte b2 && isContByte b3 && isContByte b4 then
          let cp := (b - 240) * 262144 + (b2 - 128) * 4096 + (b3 - 128) * 64 + (b4 - 128)
          if 65536 ≤ cp && cp ≤ 1114111 then
            match decodeTokens ts2 with
            | some s => some (Char.ofNat cp :: s)
            | none => none
          else none
        else none
      | _ => none
    else none

/-- `decodeURIComponent`, returning `none` where JavaScript throws. -/
def decodeURIComp (s : Str) : Option Str :=
  match uriTokens s with
  | some ts => decodeTokens ts
  | none => none

/-- Case-insensitive literal prefix match, returning the remainder. -/
def stripPrefixCI : Str → Str → Option Str
  | [], s => some s
  | _ :: _, [] => none
  | p :: ps, c :: cs =>
    if lowerChar c = lowerChar p then stripPrefixCI ps cs else none

/-- The marker `UTF-8` followed by two apostrophes from the extended
`filename*` form. -/
def utf8Marker : Str := ['U', 'T', 'F', '-', '8', aposChar, aposChar]

/-- The capture group `([^";]+)` (greedy, at least one character). -/
def captureBody (s : Str) : Option Str :=
  let body := s.takeWhile (fun c => !(c = '"' || c = ';'))
  if body.isEmpty then none else some body

/-- The alternation and capture after the equals sign in the regex
`filename\*?=(?:UTF-8ApAp|"?)([^";]+)"?` with its backtracking order:
first the extended marker, then an opening quote, then the bare capture. -/
def matchAfterEq (s : Str) : Option Str :=
  match stripPrefixCI utf8Marker s with
  | some rest =>
    match captureBody rest with
    | some b => some b
    | none => matchAfterQuote s
  | none => matchAfterQuote s
where
  /-- The `"?` branch: try consuming one quote, else capture directly. -/
  matchAfterQuote (s : Str) : Option Str :=
    match s with
    | c :: t =>
      if c = '"' then
        match captureBody t with
        | some b => some b
        | none => captureBody s
      else captureBody s
    | [] => captureBody s

/-- One anchored attempt of the filename regex at the current position. -/
def matchFilenameAt (s : Str) : Option Str :=
  match stripPrefixCI (strOf "filename") s with
  | none => none
  | some r1 =>
    let r2 := match r1 with
      | c :: t => if c = '*' then t else r1
      | [] => r1
    match r2 with
    | c :: t => if c = '=' then matchAfterEq t else none
    | [] => none

/-- The scan of `value.match(regex)`: first position where the anchored
attempt succeeds. -/
def scanFilename : Str → Option Str
  | [] => none
  | c :: t =>
    match matchFilenameAt (c :: t) with
    | some m => some m
    | none => scanFilename t

/-- `parseFilenameFromContentDisposition` (api.ts lines 210-219): regex
capture then `decodeURIComponent` with the catch returning the raw capture. -/
def parseFilenameFromContentDisposition (value : Option Str) : Option Str :=
  match value with
  | none => none
  | some v =>
    if v.isEmpty then none
    else
      match scanFilename v with
      | none => none
      | some m =>
        match decodeURIComp m with
        | some d => some d
        | none => some m

/-- The synthesized fallback name from `downloadResumeFile` (line 233). -/
def synthesizedName (resumeId : Str) (contentType : Option Str) : Str :=
  strOf "resume-" ++ resumeId ++ strOf "." ++
    (if (match contentType with
         | some ct => strIncludes ct (strOf "pdf")
         | none => false) then strOf "pdf" else strOf "bin")

/-- The filename chosen by `downloadResumeFile` (lines 230-234):
the parsed header filename, with JavaScript `||` falling back to the
synthesized name when the parse is null or empty. -/
def downloadFilename (resumeId : Str) (contentType : Option Str) (cd : Option Str) : Str :=
  match parseFilenameFromContentDisposition cd with
  | some f => if f.isEmpty then synthesizedName resumeId contentType else f
  | none => synthesizedName resumeId contentType

/-! ### Feedback History Aggregator (`loadHistory`,
ResumeFeedback.tsx lines 101-129) -/

/-- The fields of a feedback snapshot the aggregator reads. -/
structure FeedbackM where
  resume_id : Option Str
  created_at : Str
deriving DecidableEq

/-- One entry of the fetched history list. -/
structure FeedbackItem where
  feedbackId : Str
  feedback : FeedbackM
deriving DecidableEq

/-- One derived group of the history UI. -/
structure HistoryGroup where
  resumeId : Option Str
  resumeFilename : Str
  feedbackItems : List FeedbackItem
deriving DecidableEq

/-- The sentinel map key for snapshots with no source document. -/
def sentinelKey : Str := strOf "__no_resume__"

/-- `resumeId ?? sentinel` (line 108). -/
def itemKey (it : FeedbackItem) : Str :=
  match it.feedback.resume_id with
  | some r => r
  | none => sentinelKey

/-- The group label (line 109): the looked-up filename, a synthetic label
embedding the identifier when the lookup fails, and the generic label for a
falsy identifier. -/
def labelFor (lookup : Str → Option Str) (rid : Option Str) : Str :=
  match rid with
  | some r =>
    if r.isEmpty then strOf "Resume"
    else
      match lookup r with
      | some fn => fn
      | none => strOf "Resume (" ++ r ++ strOf ")"
  | none => strOf "Resume"

/-- Insertion into the insertion-ordered `groupMap` (lines 106-117):
an existing entry has the item appended; a new key is appended at the end. -/
def insertFb (lookup : Str → Option Str) (m : List (Str × HistoryGroup))
    (it : FeedbackItem) : List (Str × HistoryGroup) :=
  match m with
  | [] =>
    [(itemKey it,
      ⟨it.feedback.resume_id, labelFor lookup it.feedback.resume_id, [it]⟩)]
  | (k, g) :: rest =>
    if k = itemKey it then
      (k, {g with feedbackItems := g.feedbackItems ++ [it]}) :: rest
    else (k, g) :: insertFb lookup rest it

/-- Stable insertion of one element into a sorted list: the element goes
before the first entry it sorts no later than. -/
def insertLe {α : Type} (le : α → α → Bool) (x : α) : List α → List α
  | [] => [x]
  | y :: ys => if le x y then x :: y :: ys else y :: insertLe le x ys

/-- A stable comparator sort, modelling ECMAScript `Array.prototype.sort`
(stable per the language specification): equal-ranking elements keep their
input order. -/
def sortLe {α : Type} (le : α → α → Bool) : List α → List α
  | [] => []
  | x :: xs => insertLe le x (sortLe le xs)

/-- The within-group comparator (line 121): newest `created_at` first. -/
def itemLe (a b : FeedbackItem) : Bool :=
  strLe b.feedback.created_at a.feedback.created_at

/-- `group.feedbackItems[0]?.feedback.created_at ?? emptyString`
(lines 124-125). -/
def topCreated (g : HistoryGroup) : Str :=
  match g.feedbackItems with
  | [] => []
  | i :: _ => i.feedback.created_at

/-- The group comparator (lines 123-127): newest leading snapshot first. -/
def groupLe (a b : HistoryGroup) : Bool :=
  strLe (topCreated b) (topCreated a)

/-- The Feedback History Aggregator (`loadHistory` lines 101-129): build the
insertion-ordered group map, sort each group's snapshots newest-first, then
sort the groups by their newest snapshot. -/
def loadHistoryGroups (lookup : Str → Option Str) (items : List FeedbackItem) :
    List HistoryGroup :=
  let m := items.foldl (insertFb lookup) []
  let gs := m.map Prod.snd
  let gs2 := gs.map (fun g => {g with feedbackItems := sortLe itemLe g.feedbackItems})
  sortLe groupLe gs2

/-- The key a produced group answers to. -/
def groupKey (g : HistoryGroup) : Str :=
  match g.resumeId with
  | some r => r
  | none => sentinelKey

/-! ### Slot state and object-URL lifecycle (ResumePage.tsx lines 83-128 and
194-202) -/

/-- The per-slot UI state, with the set of created-but-unrevoked object URLs
(`live`, in creation order) made explicit; handles are numbered in creation
order by `nextId`. -/
structure SlotState where
  pdfUrl : Option Nat
  docHtml : Option Str
  live : List Nat
  nextId : Nat
deriving DecidableEq

/-- The initial slot state. -/
def initSlot : SlotState := ⟨none, none, [], 0⟩

/-- `URL.createObjectURL`: returns a fresh handle and registers it live. -/
def createUrl (s : SlotState) : Nat × SlotState :=
  (s.nextId, {s with live := s.live ++ [s.nextId], nextId := s.nextId + 1})

/-- The functional `setPdfUrl` updater of lines 106-109 and 121-124: revoke
the previous handle if any, then store the new one. -/
def setPdfRevoking (s : SlotState) (h : Nat) : SlotState :=
  match s.pdfUrl with
  | some p => {s with live := s.live.erase p, pdfUrl := some h}
  | none => {s with pdfUrl := some h}

/-- The distinguishable completions of one `loadResumePreview` run for the
slot, plus view teardown (the cleanup effect at lines 194-202). -/
inductive ResolveEv where
  | pdfDoc : Bool → ResolveEv
  | nonPdfPreviewPdf : ResolveEv
  | nonPdfHtml : Str → ResolveEv
  | nonPdfText : ResolveEv
  | teardown : ResolveEv

/-- One completed resolver run as the source executes it.  The PDF branch
(lines 104-111) creates a handle and replaces with revocation; every
non-PDF branch first runs the plain `setPdfUrl(null)` of line 113, which
drops the previous handle without revoking it. -/
def stepSlot (s : SlotState) : ResolveEv → SlotState
  | .pdfDoc ok =>
    if ok then
      let p := createUrl s
      let s2 := setPdfRevoking p.2 p.1
      {s2 with docHtml := none}
    else s
  | .nonPdfPreviewPdf =>
    let s1 := {s with pdfUrl := none}
    let p := createUrl s1
    let s2 := setPdfRevoking p.2 p.1
    {s2 with docHtml := none}
  | .nonPdfHtml v =>
    let s1 := {s with pdfUrl := none}
    {s1 with docHtml := some v}
  | .nonPdfText => {s with pdfUrl := none, docHtml := none}
  | .teardown =>
    match s.pdfUrl with
    | some p => {s with live := s.live.erase p, pdfUrl := none, docHtml := none}
    | none => {s with pdfUrl := none, docHtml := none}

/-- A reachable slot state: the initial state driven by a completion trace. -/
def runSlot (evs : List ResolveEv) : SlotState :=
  evs.foldl stepSlot initSlot

/-! ### Feedback list request limit (`listMyResumeFeedback`,
api.ts lines 284-287) -/

/-- `Math.max(1, Math.min(100, limit))`. -/
def safeFeedbackLimit (limit : Int) : Int := max 1 (min 100 limit)

/-- The default of the `limit` parameter. -/
def defaultFeedbackLimit : Int := 20

/-! ### Auxiliary definitions used by the statements and proofs -/

/-- Association-list lookup on the group map. -/
def lookupA (m : List (Str × HistoryGroup)) (k : Str) : Option HistoryGroup :=
  match m with
  | [] => none
  | (k0, g) :: rest => if k0 = k then some g else lookupA rest k

/-- The keys of the group map, in insertion order. -/
def keysOf (m : List (Str × HistoryGroup)) : List Str := m.map Prod.fst

/-- The group carried by a list of snapshots sharing one key: the first
snapshot supplies identifier and label, the whole list the contents. -/
def groupOfList (lookup : Str → Option Str) : List FeedbackItem → Option HistoryGroup
  | [] => none
  | it0 :: rest =>
    some ⟨it0.feedback.resume_id, labelFor lookup it0.feedback.resume_id, it0 :: rest⟩

/-- Appending later snapshots to an existing group. -/
def extendGroup (g : HistoryGroup) (f : List FeedbackItem) : HistoryGroup :=
  {g with feedbackItems := g.feedbackItems ++ f}

/-- The source-document identifier a key stands for, when no real document
identifier collides with the sentinel. -/
def ridOf (k : Str) : Option Str :=
  if k = sentinelKey then none else some k

/-- The lookup used by the concrete test inputs: no document resolves. -/
def lookupNone : Str → Option Str := fun _ => none

/-- Concrete history snapshots of the specification's grouping example:
A and B reference document 1 (timestamps 05 and 10), C references
document 2 (timestamp 07). -/
def exItemA : FeedbackItem := ⟨strOf "A", ⟨some (strOf "1"), strOf "05"⟩⟩

/-- Snapshot B of the grouping example. -/
def exItemB : FeedbackItem := ⟨strOf "B", ⟨some (strOf "1"), strOf "10"⟩⟩

/-- Snapshot C of the grouping example. -/
def exItemC : FeedbackItem := ⟨strOf "C", ⟨some (strOf "2"), strOf "07"⟩⟩

/-- Two snapshots of the same document with tied creation timestamps, used
to exhibit the input-order dependence of the aggregator. -/
def tieItemA : FeedbackItem := ⟨strOf "A", ⟨some (strOf "1"), strOf "05"⟩⟩

/-- The second tied snapshot. -/
def tieItemB : FeedbackItem := ⟨strOf "B", ⟨some (strOf "1"), strOf "05"⟩⟩

/-- The non-PDF document of the resolver fallback scenario: a legacy `.doc`
file whose extracted text survives the Noise Classifier. -/
def docResumeDoc : ResumeDetailM :=
  ⟨strOf "resume.doc", some (strOf "application/msword"),
   some (strOf "PROFESSIONAL EXPERIENCE\nLed a team of engineers building search tools")⟩

/-- The unsorted group belonging to one key: the first matching snapshot
supplies identifier and label, the filter by key the contents. -/
def rawGroup (lookup : Str → Option Str) (items : List FeedbackItem) (k : Str) :
    HistoryGroup :=
  match items.filter (fun it => itemKey it = k) with
  | [] => ⟨none, [], []⟩
  | it0 :: r =>
    ⟨it0.feedback.resume_id, labelFor lookup it0.feedback.resume_id, it0 :: r⟩

/-- The per-group snapshot sort of `loadHistory` line 121. -/
def sortGroupItems (g : HistoryGroup) : HistoryGroup :=
  {g with feedbackItems := sortLe itemLe g.feedbackItems}

/-! ## Lemmas about trimming -/

theorem dropWhile_idem (p : Char → Bool) (l : Str) :
    (l.dropWhile p).dropWhile p = l.dropWhile p := by
  induction l with
  | nil => rfl
  | cons a t ih =>
    by_cases h : p a
    · simp [List.dropWhile_cons, h, ih]
    · simp [List.dropWhile_cons, h]

theorem trimStart_trimStart (s : Str) : trimStart (trimStart s) = trimStart s :=
  dropWhile_idem isWS s

theorem trimEnd_trimEnd (s : Str) : trimEnd (trimEnd s) = trimEnd s := by
  simp [trimEnd, List.reverse_reverse, dropWhile_idem]

theorem mem_of_mem_trimStart {c : Char} {s : Str} (h : c ∈ trimStart s) : c ∈ s :=
  List.Sublist.mem h (List.dropWhile_sublist (l := s) isWS)

theorem mem_of_mem_trimEnd {c : Char} {s : Str} (h : c ∈ trimEnd s) : c ∈ s := by
  unfold trimEnd at h
  rw [List.mem_reverse] at h
  exact List.mem_reverse.mp
    (List.Sublist.mem h (List.dropWhile_sublist (l := s.reverse) isWS))

theorem mem_of_mem_trimBoth {c : Char} {s : Str} (h : c ∈ trimBoth s) : c ∈ s :=
  mem_of_mem_trimStart (mem_of_mem_trimEnd h)

theorem trimEnd_prefix (s : Str) : trimEnd s <+: s := by
  unfold trimEnd
  conv_rhs => rw [← List.reverse_reverse s]
  exact List.reverse_prefix.mpr (List.dropWhile_suffix isWS)

theorem trimStart_trimEnd_trimStart (s : Str) :
    trimStart (trimEnd (trimStart s)) = trimEnd (trimStart s) := by
  have hyy : trimStart (trimStart s) = trimStart s := trimStart_trimStart s
  cases h : trimEnd (trimStart s) with
  | nil => rfl
  | cons a t =>
    have hp : a :: t <+: trimStart s := h ▸ trimEnd_prefix (trimStart s)
    obtain ⟨r, hr⟩ := hp
    have ha : isWS a = false := by
      by_contra hcon
      have ha' : isWS a = true := by
        cases hb : isWS a with
        | false => exact absurd hb hcon
        | true => rfl
      have h1 : trimStart s = a :: (t ++ r) := by
        rw [← hr]; rfl
      have h2 : List.dropWhile isWS (t ++ r) = a :: (t ++ r) := by
        have h3 := hyy
        rw [h1] at h3
        simpa [trimStart, List.dropWhile_cons, ha'] using h3
      have h4 := congrArg List.length h2
      have h5 := (List.dropWhile_sublist (l := t ++ r) isWS).length_le
      simp [List.length_append] at h4 h5
      omega
    show trimStart (a :: t) = a :: t
    simp [trimStart, List.dropWhile_cons, ha]

theorem trimBoth_idem (s : Str) : trimBoth (trimBoth s) = trimBoth s := by
  show trimEnd (trimStart (trimEnd (trimStart s))) = trimBoth s
  rw [trimStart_trimEnd_trimStart s]
  exact trimEnd_trimEnd _

theorem trimEnd_trimBoth (s : Str) : trimEnd (trimBoth s) = trimBoth s :=
  trimEnd_trimEnd _

/-! ## Lemmas about newline normalization, splitting and joining -/

theorem cr_not_mem_normalize : ∀ s : Str, crChar ∉ normalizeNewlines s
  | [] => by simp [normalizeNewlines]
  | [c] => by
    unfold normalizeNewlines
    by_cases h : c = crChar
    · simp only [h, if_pos rfl]
      simp [crChar, nlChar, Char.ext_iff]
    · simp only [if_neg h]
      simpa using fun hc => h hc.symm
  | c :: c2 :: rest => by
    unfold normalizeNewlines
    by_cases h : c = crChar
    · by_cases h2 : c2 = nlChar
      · simp only [h, h2, if_pos rfl]
        intro hm
        rcases List.mem_cons.mp hm with h3 | h3
        · exact absurd h3.symm (by simp [crChar, nlChar, Char.ext_iff])
        · exact cr_not_mem_normalize rest h3
      · simp only [h, if_pos rfl, if_neg h2]
        intro hm
        rcases List.mem_cons.mp hm with h3 | h3
        · exact absurd h3.symm (by simp [crChar, nlChar, Char.ext_iff])
        · exact cr_not_mem_normalize (c2 :: rest) h3
    · simp only [if_neg h]
      intro hm
      rcases List.mem_cons.mp hm with h3 | h3
      · exact h h3.symm
      · exact cr_not_mem_normalize (c2 :: rest) h3

theorem normalize_of_no_cr : ∀ s : Str, crChar ∉ s → normalizeNewlines s = s
  | [], _ => rfl
  | [c], h => by
    unfold normalizeNewlines
    rw [if_neg (by simpa using fun hc : c = crChar => h (by simp [hc]))]
  | c :: c2 :: rest, h => by
    unfold normalizeNewlines
    rw [if_neg (by
      intro hc
      exact h (by simp [hc]))]
    rw [normalize_of_no_cr (c2 :: rest) (fun hm => h (List.mem_cons_of_mem c hm))]

theorem splitOnNl_cons (c : Char) (rest : Str) :
    splitOnNl (c :: rest) =
      if c = nlChar then [] :: splitOnNl rest
      else
        match splitOnNl rest with
        | [] => [[c]]
        | p :: t => (c :: p) :: t := rfl

theorem splitOnNl_ne_nil : ∀ s : Str, splitOnNl s ≠ [] := by
  intro s
  cases s with
  | nil => simp [splitOnNl]
  | cons c rest =>
    unfold splitOnNl
    by_cases h : c = nlChar
    · simp [h]
    · simp only [if_neg h]
      cases hps : splitOnNl rest with
      | nil => simp
      | cons p t => simp

theorem not_nl_mem_splitOnNl : ∀ (s : Str) (p : Str), p ∈ splitOnNl s → nlChar ∉ p := by
  intro s
  induction s with
  | nil =>
    intro p hp
    simp [splitOnNl] at hp
    simp [hp]
  | cons c rest ih =>
    intro p hp
    unfold splitOnNl at hp
    by_cases h : c = nlChar
    · simp only [h, if_pos rfl] at hp
      rcases List.mem_cons.mp hp with h1 | h1
      · simp [h1]
      · exact ih p h1
    · simp only [if_neg h] at hp
      cases hps : splitOnNl rest with
      | nil => exact absurd hps (splitOnNl_ne_nil rest)
      | cons q t =>
        rw [hps] at hp
        simp only at hp
        rcases List.mem_cons.mp hp with h1 | h1
        · subst h1
          intro hm
          rcases List.mem_cons.mp hm with h2 | h2
          · exact h h2.symm
          · exact ih q (hps ▸ List.mem_cons_self q t) h2
        · exact ih p (hps ▸ List.mem_cons_of_mem q h1)

theorem mem_splitOnNl_mem : ∀ (s p : Str) (x : Char), p ∈ splitOnNl s → x ∈ p → x ∈ s := by
  intro s
  induction s with
  | nil =>
    intro p x hp hx
    simp [splitOnNl] at hp
    subst hp
    cases hx
  | cons c rest ih =>
    intro p x hp hx
    unfold splitOnNl at hp
    by_cases h : c = nlChar
    · simp only [h, if_pos rfl] at hp
      rcases List.mem_cons.mp hp with h1 | h1
      · subst h1; cases hx
      · exact List.mem_cons_of_mem c (ih p x h1 hx)
    · simp only [if_neg h] at hp
      cases hps : splitOnNl rest with
      | nil => exact absurd hps (splitOnNl_ne_nil rest)
      | cons q t =>
        rw [hps] at hp
        simp only at hp
        rcases List.mem_cons.mp hp with h1 | h1
        · subst h1
          rcases List.mem_cons.mp hx with h2 | h2
          · simp [h2]
          · exact List.mem_cons_of_mem c (ih q x (hps ▸ List.mem_cons_self q t) h2)
        · exact List.mem_cons_of_mem c (ih p x (hps ▸ List.mem_cons_of_mem q h1) hx)

theorem splitOnNl_append_nl : ∀ (a l : Str), nlChar ∉ a →
    splitOnNl (a ++ nlChar :: l) = a :: splitOnNl l := by
  intro a
  induction a with
  | nil =>
    intro l _
    simp [splitOnNl]
  | cons c a' ih =>
    intro l ha
    have hc : ¬(c = nlChar) := fun h => ha (by simp [h])
    have ha' : nlChar ∉ a' := fun h => ha (List.mem_cons_of_mem c h)
    show splitOnNl (c :: (a' ++ nlChar :: l)) = (c :: a') :: splitOnNl l
    rw [splitOnNl_cons, if_neg hc, ih l ha']

theorem splitOnNl_no_nl : ∀ a : Str, nlChar ∉ a → splitOnNl a = [a] := by
  intro a
  induction a with
  | nil => intro _; rfl
  | cons c a' ih =>
    intro ha
    have hc : ¬(c = nlChar) := fun h => ha (by simp [h])
    have ha' : nlChar ∉ a' := fun h => ha (List.mem_cons_of_mem c h)
    rw [splitOnNl_cons, if_neg hc, ih ha']

theorem splitOnNl_joinNl : ∀ ls : List Str, ls ≠ [] → (∀ x ∈ ls, nlChar ∉ x) →
    splitOnNl (joinNl ls) = ls
  | [], h, _ => absurd rfl h
  | [x], _, hnl => by
    show splitOnNl (joinNl [x]) = [x]
    unfold joinNl
    exact splitOnNl_no_nl x (hnl x (List.mem_singleton.mpr rfl))
  | x :: y :: rest, _, hnl => by
    show splitOnNl (x ++ nlChar :: joinNl (y :: rest)) = x :: (y :: rest)
    rw [splitOnNl_append_nl x _ (hnl x (List.mem_cons_self x _))]
    rw [splitOnNl_joinNl (y :: rest) (by simp)
      (fun z hz => hnl z (List.mem_cons_of_mem x hz))]

theorem mem_joinNl : ∀ (ls : List Str) (x : Char), x ∈ joinNl ls →
    x = nlChar ∨ ∃ t ∈ ls, x ∈ t
  | [], x, hx => by cases hx
  | [t], x, hx => Or.inr ⟨t, List.mem_singleton.mpr rfl, hx⟩
  | t :: u :: rest, x, hx => by
    have hx' : x ∈ t ++ nlChar :: joinNl (u :: rest) := hx
    rcases List.mem_append.mp hx' with h1 | h1
    · exact Or.inr ⟨t, List.mem_cons_self t _, h1⟩
    · rcases List.mem_cons.mp h1 with h2 | h2
      · exact Or.inl h2
      · rcases mem_joinNl (u :: rest) x h2 with h3 | ⟨w, hw, hxw⟩
        · exact Or.inl h3
        · exact Or.inr ⟨w, List.mem_cons_of_mem t hw, hxw⟩

theorem joinNl_ne_nil : ∀ ls : List Str, ls ≠ [] → (∀ x ∈ ls, x ≠ []) →
    joinNl ls ≠ []
  | [], h, _ => absurd rfl h
  | [x], _, hne => by
    show joinNl [x] ≠ []
    unfold joinNl
    exact hne x (List.mem_singleton.mpr rfl)
  | x :: y :: rest, _, _ => by
    show x ++ nlChar :: joinNl (y :: rest) ≠ []
    simp

/-! ## Lemmas about the Noise Classifier loop -/

theorem cleanLoop_mem : ∀ (ls : List Str) (acc : List Str) (t : Str),
    t ∈ cleanLoop ls acc →
    t ∈ acc ∨ ∃ l ∈ ls, t = trimBoth l ∧ (trimBoth l).isEmpty = false ∧
      hasHardNoise (trimBoth l) = false ∧ rejectsLine (trimBoth l) = false := by
  intro ls
  induction ls with
  | nil =>
    intro acc t ht
    exact Or.inl ht
  | cons l rest ih =>
    intro acc t ht
    have lift : (t ∈ acc ∨ ∃ x ∈ rest, t = trimBoth x ∧ (trimBoth x).isEmpty = false ∧
        hasHardNoise (trimBoth x) = false ∧ rejectsLine (trimBoth x) = false) →
        t ∈ acc ∨ ∃ x ∈ l :: rest, t = trimBoth x ∧ (trimBoth x).isEmpty = false ∧
        hasHardNoise (trimBoth x) = false ∧ rejectsLine (trimBoth x) = false := by
      rintro (h | ⟨x, hx, hrest⟩)
      · exact Or.inl h
      · exact Or.inr ⟨x, List.mem_cons_of_mem l hx, hrest⟩
    unfold cleanLoop at ht
    by_cases he : (trimBoth l).isEmpty = true
    · rw [if_pos he] at ht
      exact lift (ih acc t ht)
    · rw [if_neg he] at ht
      by_cases hn : hasHardNoise (trimBoth l) = true
      · rw [if_pos hn] at ht
        by_cases h12 : 12 ≤ acc.length
        · rw [if_pos h12] at ht
          exact Or.inl ht
        · rw [if_neg h12] at ht
          exact lift (ih acc t ht)
      · rw [if_neg hn] at ht
        by_cases hr : rejectsLine (trimBoth l) = true
        · rw [if_pos hr] at ht
          exact lift (ih acc t ht)
        · rw [if_neg hr] at ht
          rcases ih _ t ht with hacc | ⟨x, hx, hrest⟩
          · rcases List.mem_append.mp hacc with h1 | h1
            · exact Or.inl h1
            · have h2 : t = trimBoth l := List.mem_singleton.mp h1
              exact Or.inr ⟨l, List.mem_cons_self l rest,
                h2, by simpa using he, by simpa using hn, by simpa using hr⟩
          · exact Or.inr ⟨x, List.mem_cons_of_mem l hx, hrest⟩

theorem cleanLoop_of_clean : ∀ ls : List Str,
    (∀ l ∈ ls, trimBoth l = l ∧ l.isEmpty = false ∧ hasHardNoise l = false ∧
      rejectsLine l = false) →
    ∀ acc, cleanLoop ls acc = acc ++ ls := by
  intro ls
  induction ls with
  | nil =>
    intro _ acc
    simp [cleanLoop]
  | cons l rest ih =>
    intro h acc
    obtain ⟨htb, hne, hnn, hnr⟩ := h l (List.mem_cons_self l rest)
    have hrest := fun x hx => h x (List.mem_cons_of_mem l hx)
    unfold cleanLoop
    rw [htb]
    rw [if_neg (by simp [hne]), if_neg (by simp [hnn]), if_neg (by simp [hnr])]
    rw [ih hrest (acc ++ [l])]
    simp

theorem cleanLoop_all_noise :
    ∀ ls : List Str,
      (∀ l ∈ ls, trimBoth l = [] ∨ hasHardNoise (trimBoth l) = true) →
      cleanLoop ls [] = [] := by
  intro ls h
  induction ls with
  | nil => rfl
  | cons l rest ih =>
    have hl := h l (List.mem_cons_self l rest)
    have hrest : ∀ x ∈ rest, trimBoth x = [] ∨ hasHardNoise (trimBoth x) = true :=
      fun x hx => h x (List.mem_cons_of_mem l hx)
    unfold cleanLoop
    by_cases he : (trimBoth l).isEmpty
    · simp only [he, if_true]
      exact ih hrest
    · have hn : hasHardNoise (trimBoth l) = true := by
        rcases hl with h1 | h2
        · exact absurd (by simp [h1, List.isEmpty]) he
        · exact h2
      simp only [he, if_false, hn, if_true, List.length_nil]
      norm_num
      exact ih hrest

/-! ## Lemmas about the lexicographic string order -/

theorem strLe_total : ∀ a b : Str, (strLe a b || strLe b a) = true := by
  intro a
  induction a with
  | nil => intro b; simp [strLe]
  | cons x xs ih =>
    intro b
    cases b with
    | nil => simp [strLe]
    | cons y ys =>
      unfold strLe
      rcases lt_trichotomy x y with h | h | h
      · simp [h]
      · subst h
        simp only [lt_irrefl, if_false]
        exact ih ys
      · simp [h, asymm h]

theorem strLe_trans : ∀ a b c : Str, strLe a b = true → strLe b c = true →
    strLe a c = true := by
  intro a
  induction a with
  | nil => intro b c _ _; rfl
  | cons x xs ih =>
    intro b c hab hbc
    cases b with
    | nil => exact absurd hab (by simp [strLe])
    | cons y ys =>
      cases c with
      | nil => exact absurd hbc (by simp [strLe])
      | cons z zs =>
        unfold strLe at hab hbc ⊢
        rcases lt_trichotomy x y with h1 | h1 | h1
        · rcases lt_trichotomy y z with h2 | h2 | h2
          · rw [if_pos (h1.trans h2)]
          · subst h2
            rw [if_pos h1]
          · rw [if_neg (asymm h2), if_pos h2] at hbc
            cases hbc
        · subst h1
          rw [if_neg (lt_irrefl x), if_neg (lt_irrefl x)] at hab
          rcases lt_trichotomy x z with h2 | h2 | h2
          · rw [if_pos h2]
          · subst h2
            rw [if_neg (lt_irrefl x), if_neg (lt_irrefl x)] at hbc ⊢
            exact ih ys zs hab hbc
          · rw [if_neg (asymm h2), if_pos h2] at hbc
            cases hbc
        · rw [if_neg (asymm h1), if_pos h1] at hab
          cases hab

theorem strLe_antisymm : ∀ a b : Str, strLe a b = true → strLe b a = true → a = b := by
  intro a
  induction a with
  | nil =>
    intro b _ hba
    cases b with
    | nil => rfl
    | cons y ys => exact absurd hba (by simp [strLe])
  | cons x xs ih =>
    intro b hab hba
    cases b with
    | nil => exact absurd hab (by simp [strLe])
    | cons y ys =>
      unfold strLe at hab hba
      rcases lt_trichotomy x y with h1 | h1 | h1
      · rw [if_neg (asymm h1), if_pos h1] at hba
        cases hba
      · subst h1
        rw [if_neg (lt_irrefl x), if_neg (lt_irrefl x)] at hab hba
        rw [ih ys hab hba]
      · rw [if_neg (asymm h1), if_pos h1] at hab
        cases hab

theorem itemLe_trans : ∀ a b c : FeedbackItem, itemLe a b = true → itemLe b c = true →
    itemLe a c = true := fun _ _ _ hab hbc => strLe_trans _ _ _ hbc hab

theorem itemLe_total : ∀ a b : FeedbackItem, (itemLe a b || itemLe b a) = true :=
  fun a b => strLe_total b.feedback.created_at a.feedback.created_at

theorem groupLe_trans : ∀ a b c : HistoryGroup, groupLe a b = true → groupLe b c = true →
    groupLe a c = true := fun _ _ _ hab hbc => strLe_trans _ _ _ hbc hab

theorem groupLe_total : ∀ a b : HistoryGroup, (groupLe a b || groupLe b a) = true :=
  fun a b => strLe_total (topCreated b) (topCreated a)

theorem insertLe_perm {α : Type} (le : α → α → Bool) (x : α) :
    ∀ l : List α, (insertLe le x l).Perm (x :: l) := by
  intro l
  induction l with
  | nil => exact List.Perm.refl _
  | cons y ys ih =>
    by_cases h : le x y = true
    · simp only [insertLe, if_pos h]
      exact List.Perm.refl _
    · simp only [insertLe, if_neg h]
      exact (ih.cons y).trans (List.Perm.swap x y ys)

theorem sortLe_perm {α : Type} (le : α → α → Bool) :
    ∀ l : List α, (sortLe le l).Perm l := by
  intro l
  induction l with
  | nil => exact List.Perm.refl _
  | cons x xs ih =>
    exact (insertLe_perm le x (sortLe le xs)).trans (ih.cons x)

theorem insertLe_pairwise {α : Type} (le : α → α → Bool)
    (htrans : ∀ a b c, le a b = true → le b c = true → le a c = true)
    (htotal : ∀ a b, (le a b || le b a) = true) (x : α) :
    ∀ l : List α, l.Pairwise (fun a b => le a b = true) →
      (insertLe le x l).Pairwise (fun a b => le a b = true) := by
  intro l
  induction l with
  | nil =>
    intro _
    simp [insertLe]
  | cons y ys ih =>
    intro hp
    obtain ⟨hy, hys⟩ := List.pairwise_cons.mp hp
    by_cases h : le x y = true
    · simp only [insertLe, if_pos h]
      refine List.pairwise_cons.mpr ⟨?_, hp⟩
      intro z hz
      rcases List.mem_cons.mp hz with h1 | h1
      · subst h1
        exact h
      · exact htrans x y z h (hy z h1)
    · simp only [insertLe, if_neg h]
      refine List.pairwise_cons.mpr ⟨?_, ih hys⟩
      intro z hz
      rcases List.mem_cons.mp ((insertLe_perm le x ys).mem_iff.mp hz) with h1 | h1
      · rw [h1]
        have ht := htotal x y
        rw [Bool.or_eq_true] at ht
        rcases ht with h2 | h2
        · exact absurd h2 h
        · exact h2
      · exact hy z h1

theorem sortLe_pairwise {α : Type} (le : α → α → Bool)
    (htrans : ∀ a b c, le a b = true → le b c = true → le a c = true)
    (htotal : ∀ a b, (le a b || le b a) = true) :
    ∀ l : List α, (sortLe le l).Pairwise (fun a b => le a b = true) := by
  intro l
  induction l with
  | nil => exact List.Pairwise.nil
  | cons x xs ih =>
    exact insertLe_pairwise le htrans htotal x (sortLe le xs) ih

/-- Two sorted lists that are permutations of each other, with the ordering
antisymmetric on the first list's members, are equal. -/
theorem sortedPermEqOn {α : Type} (le : α → α → Bool) :
    ∀ l₁ l₂ : List α, l₁.Perm l₂ →
      l₁.Pairwise (fun a b => le a b = true) →
      l₂.Pairwise (fun a b => le a b = true) →
      (∀ a ∈ l₁, ∀ b ∈ l₁, le a b = true → le b a = true → a = b) →
      l₁ = l₂ := by
  intro l₁
  induction l₁ with
  | nil =>
    intro l₂ hp _ _ _
    exact (hp.symm.eq_nil).symm
  | cons a t₁ ih =>
    intro l₂ hp hs₁ hs₂ hanti
    cases l₂ with
    | nil => cases hp.eq_nil
    | cons b t₂ =>
      have hb1 : b ∈ a :: t₁ := hp.mem_iff.mpr (List.mem_cons_self b t₂)
      have hab : a = b := by
        rcases List.mem_cons.mp hb1 with h | h
        · exact h.symm
        · have hle_ab : le a b = true := (List.pairwise_cons.mp hs₁).1 b h
          have ha2 : a ∈ b :: t₂ := hp.mem_iff.mp (List.mem_cons_self a t₁)
          rcases List.mem_cons.mp ha2 with h2 | h2
          · exact h2
          · have hle_ba : le b a = true := (List.pairwise_cons.mp hs₂).1 a h2
            exact hanti a (List.mem_cons_self a t₁) b hb1 hle_ab hle_ba
      subst hab
      rw [ih t₂ hp.cons_inv (List.pairwise_cons.mp hs₁).2 (List.pairwise_cons.mp hs₂).2
        (fun x hx y hy => hanti x (List.mem_cons_of_mem a hx) y (List.mem_cons_of_mem a hy))]

/-! ## Lemmas about filename extraction -/

theorem takeWhile_all (p : Char → Bool) :
    ∀ a : Str, (∀ c ∈ a, p c = true) → a.takeWhile p = a := by
  intro a
  induction a with
  | nil => intro _; rfl
  | cons c t ih =>
    intro h
    rw [List.takeWhile_cons, if_pos (h c (List.mem_cons_self c t))]
    rw [ih (fun x hx => h x (List.mem_cons_of_mem c hx))]

theorem takeWhile_append_stop (p : Char → Bool) :
    ∀ (a : Str) (b : Char) (t : Str), (∀ c ∈ a, p c = true) → p b = false →
      ((a ++ b :: t).takeWhile p) = a := by
  intro a
  induction a with
  | nil =>
    intro b t _ hb
    rw [List.nil_append, List.takeWhile_cons, if_neg (by simp [hb])]
  | cons c a' ih =>
    intro b t h hb
    rw [List.cons_append, List.takeWhile_cons, if_pos (h c (List.mem_cons_self c a'))]
    rw [ih b t (fun x hx => h x (List.mem_cons_of_mem c hx)) hb]

theorem stripPrefixCI_self_append : ∀ p s : Str, stripPrefixCI p (p ++ s) = some s := by
  intro p
  induction p with
  | nil => intro s; rfl
  | cons c ps ih =>
    intro s
    show stripPrefixCI (c :: ps) (c :: (ps ++ s)) = some s
    unfold stripPrefixCI
    rw [if_pos rfl]
    exact ih s

theorem stripPrefixCI_isPrefix : ∀ p s r : Str, stripPrefixCI p s = some r →
    (lowerStr p).isPrefixOf (lowerStr s) = true := by
  intro p
  induction p with
  | nil =>
    intro s _ _
    simp [lowerStr, List.isPrefixOf]
  | cons p0 ps ih =>
    intro s r h
    cases s with
    | nil => exact absurd h (by simp [stripPrefixCI])
    | cons c cs =>
      unfold stripPrefixCI at h
      by_cases he : lowerChar c = lowerChar p0
      · rw [if_pos he] at h
        show List.isPrefixOf (lowerChar p0 :: lowerStr ps) (lowerChar c :: lowerStr cs) = true
        simp only [List.isPrefixOf, Bool.and_eq_true, beq_iff_eq]
        exact ⟨he.symm, ih cs r h⟩
      · rw [if_neg he] at h
        cases h

theorem scanFilename_of_matchAt : ∀ (v m : Str), matchFilenameAt v = some m →
    scanFilename v = some m := by
  intro v m h
  cases v with
  | nil =>
    exact absurd h (by rw [show matchFilenameAt [] = none from rfl]; simp)
  | cons c t =>
    unfold scanFilename
    rw [h]

theorem scanFilename_includes : ∀ v m : Str, scanFilename v = some m →
    strIncludes (lowerStr v) (strOf "filename") = true := by
  intro v
  induction v with
  | nil => intro m h; cases h
  | cons c t ih =>
    intro m h
    unfold scanFilename at h
    cases hm : matchFilenameAt (c :: t) with
    | some m0 =>
      unfold matchFilenameAt at hm
      cases hs : stripPrefixCI (strOf "filename") (c :: t) with
      | none => rw [hs] at hm; cases hm
      | some r1 =>
        have hpre := stripPrefixCI_isPrefix (strOf "filename") (c :: t) r1 hs
        have hlow : lowerStr (strOf "filename") = strOf "filename" := by decide
        rw [hlow] at hpre
        show strIncludes (lowerChar c :: lowerStr t) (strOf "filename") = true
        unfold strIncludes
        rw [show lowerChar c :: lowerStr t = lowerStr (c :: t) from rfl, hpre]
        simp
    | none =>
      rw [hm] at h
      show strIncludes (lowerChar c :: lowerStr t) (strOf "filename") = true
      unfold strIncludes
      rw [ih m h]
      simp

theorem uriTokens_no_pct : ∀ s : Str, '%' ∉ s →
    uriTokens s = some (s.map Sum.inl) := by
  intro s
  induction s with
  | nil => intro _; rfl
  | cons c t ih =>
    intro h
    have hc : ¬(c = '%') := fun hx => h (by simp [hx])
    unfold uriTokens
    rw [if_neg hc, ih (fun hx => h (List.mem_cons_of_mem c hx))]
    rfl

theorem decodeTokens_inl : ∀ s : Str, decodeTokens (s.map Sum.inl) = some s := by
  intro s
  induction s with
  | nil => rfl
  | cons c t ih =>
    show decodeTokens (Sum.inl c :: t.map Sum.inl) = some (c :: t)
    rw [show decodeTokens (Sum.inl c :: t.map Sum.inl) =
        (match decodeTokens (t.map Sum.inl) with
         | some s => some (c :: s)
         | none => none) from rfl]
    rw [ih]

theorem decodeURIComp_no_pct (s : Str) (h : '%' ∉ s) : decodeURIComp s = some s := by
  unfold decodeURIComp
  rw [uriTokens_no_pct s h]
  exact decodeTokens_inl s

/-! ## Lemmas about the Feedback History group map -/

theorem lookupA_nil (k : Str) : lookupA [] k = none := rfl

theorem lookupA_cons (k0 : Str) (g : HistoryGroup) (rest : List (Str × HistoryGroup))
    (k : Str) :
    lookupA ((k0, g) :: rest) k = if k0 = k then some g else lookupA rest k := rfl

theorem insertFb_cons (lookup : Str → Option Str) (k0 : Str) (g : HistoryGroup)
    (rest : List (Str × HistoryGroup)) (it : FeedbackItem) :
    insertFb lookup ((k0, g) :: rest) it =
      if k0 = itemKey it then
        (k0, {g with feedbackItems := g.feedbackItems ++ [it]}) :: rest
      else (k0, g) :: insertFb lookup rest it := rfl

theorem lookupA_insertFb (lookup : Str → Option Str) :
    ∀ (m : List (Str × HistoryGroup)) (it : FeedbackItem) (k : Str),
      lookupA (insertFb lookup m it) k =
        if k = itemKey it then
          match lookupA m k with
          | some g => some (extendGroup g [it])
          | none =>
            some ⟨it.feedback.resume_id, labelFor lookup it.feedback.resume_id, [it]⟩
        else lookupA m k := by
  intro m
  induction m with
  | nil =>
    intro it k
    rw [show insertFb lookup [] it =
      [(itemKey it,
        ⟨it.feedback.resume_id, labelFor lookup it.feedback.resume_id, [it]⟩)] from rfl]
    rw [lookupA_cons, lookupA_nil]
    by_cases h : k = itemKey it
    · rw [if_pos h.symm, if_pos h]
    · rw [if_neg (fun hh => h hh.symm), if_neg h]
  | cons e rest ih =>
    intro it k
    obtain ⟨k0, g⟩ := e
    rw [insertFb_cons]
    by_cases h0 : k0 = itemKey it
    · rw [if_pos h0, lookupA_cons]
      by_cases hk : k0 = k
      · rw [if_pos hk, if_pos (by rw [← hk, h0]), lookupA_cons, if_pos hk]
        rfl
      · rw [if_neg hk, if_neg (fun hh => hk (by rw [h0, ← hh])), lookupA_cons, if_neg hk]
    · rw [if_neg h0, lookupA_cons]
      by_cases hk : k0 = k
      · rw [if_pos hk, if_neg (fun hh => h0 (by rw [hk, hh])), lookupA_cons, if_pos hk]
      · rw [if_neg hk, ih it k, lookupA_cons, if_neg hk]

theorem extendGroup_nil (g : HistoryGroup) : extendGroup g [] = g := by
  unfold extendGroup
  simp

theorem extendGroup_append (g : HistoryGroup) (f1 f2 : List FeedbackItem) :
    extendGroup (extendGroup g f1) f2 = extendGroup g (f1 ++ f2) := by
  unfold extendGroup
  simp

theorem lookupA_foldl (lookup : Str → Option Str) :
    ∀ (items : List FeedbackItem) (m : List (Str × HistoryGroup)) (k : Str),
      lookupA (items.foldl (insertFb lookup) m) k =
        match lookupA m k with
        | some g => some (extendGroup g (items.filter (fun it => itemKey it = k)))
        | none => groupOfList lookup (items.filter (fun it => itemKey it = k)) := by
  intro items
  induction items with
  | nil =>
    intro m k
    rw [List.foldl_nil, List.filter_nil]
    cases h : lookupA m k with
    | none => rfl
    | some g =>
      simp only [extendGroup_nil]
  | cons it rest ih =>
    intro m k
    rw [List.foldl_cons, ih (insertFb lookup m it) k, lookupA_insertFb lookup m it k]
    by_cases hk : k = itemKey it
    · rw [if_pos hk, List.filter_cons_of_pos (by simp [hk])]
      cases h : lookupA m k with
      | some g =>
        simp only [extendGroup_append]
        rfl
      | none =>
        simp only [extendGroup]
        rfl
    · rw [if_neg hk, List.filter_cons_of_neg (by simp; exact fun hh => hk hh.symm)]

theorem keysOf_cons (e : Str × HistoryGroup) (rest : List (Str × HistoryGroup)) :
    keysOf (e :: rest) = e.1 :: keysOf rest := rfl

theorem keysOf_insertFb (lookup : Str → Option Str) :
    ∀ (m : List (Str × HistoryGroup)) (it : FeedbackItem),
      keysOf (insertFb lookup m it) =
        if itemKey it ∈ keysOf m then keysOf m else keysOf m ++ [itemKey it] := by
  intro m
  induction m with
  | nil =>
    intro it
    simp [insertFb, keysOf]
  | cons e rest ih =>
    intro it
    obtain ⟨k0, g⟩ := e
    rw [insertFb_cons]
    by_cases h0 : k0 = itemKey it
    · rw [if_pos h0, keysOf_cons, keysOf_cons]
      rw [if_pos (by rw [← h0]; exact List.mem_cons_self k0 _)]
    · rw [if_neg h0, keysOf_cons, keysOf_cons, ih it]
      by_cases hm : itemKey it ∈ keysOf rest
      · rw [if_pos hm, if_pos (List.mem_cons_of_mem k0 hm)]
      · rw [if_neg hm, if_neg (by
          intro hh
          rcases List.mem_cons.mp hh with h1 | h1
          · exact h0 h1.symm
          · exact hm h1)]
        rfl

theorem keysOf_foldl_nodup (lookup : Str → Option Str) :
    ∀ (items : List FeedbackItem) (m : List (Str × HistoryGroup)),
      (keysOf m).Nodup → (keysOf (items.foldl (insertFb lookup) m)).Nodup := by
  intro items
  induction items with
  | nil => intro m h; exact h
  | cons it rest ih =>
    intro m h
    rw [List.foldl_cons]
    refine ih (insertFb lookup m it) ?_
    rw [keysOf_insertFb]
    by_cases hm : itemKey it ∈ keysOf m
    · rw [if_pos hm]; exact h
    · rw [if_neg hm]
      simp [List.nodup_append, h, hm]

theorem lookupA_eq_none_iff : ∀ (m : List (Str × HistoryGroup)) (k : Str),
    lookupA m k = none ↔ k ∉ keysOf m := by
  intro m
  induction m with
  | nil => intro k; simp [lookupA, keysOf]
  | cons e rest ih =>
    intro k
    obtain ⟨k0, g⟩ := e
    rw [lookupA_cons, keysOf_cons]
    by_cases h : k0 = k
    · rw [if_pos h]
      simp [h]
    · rw [if_neg h, ih k]
      simp only [List.mem_cons, not_or]
      constructor
      · intro h1
        exact ⟨fun hh => h hh.symm, h1⟩
      · intro h1
        exact h1.2

theorem mem_entry_lookupA : ∀ m : List (Str × HistoryGroup), (keysOf m).Nodup →
    ∀ (k : Str) (g : HistoryGroup), (k, g) ∈ m → lookupA m k = some g := by
  intro m
  induction m with
  | nil => intro _ k g h; cases h
  | cons e rest ih =>
    intro hnd k g hmem
    obtain ⟨k0, g0⟩ := e
    rw [keysOf_cons] at hnd
    have hnd2 := List.nodup_cons.mp hnd
    rw [lookupA_cons]
    rcases List.mem_cons.mp hmem with h1 | h1
    · injection h1 with h1a h1b
      rw [if_pos h1a.symm, h1b]
    · have hkmem : k ∈ keysOf rest := List.mem_map.mpr ⟨(k, g), h1, rfl⟩
      rw [if_neg (fun hh => hnd2.1 (by rw [hh]; exact hkmem))]
      exact ih hnd2.2 k g h1

theorem rawGroup_items (lookup : Str → Option Str) (items : List FeedbackItem) (k : Str) :
    (rawGroup lookup items k).feedbackItems = items.filter (fun it => itemKey it = k) := by
  unfold rawGroup
  cases hf : items.filter (fun it => itemKey it = k) with
  | nil => rfl
  | cons it0 r => rfl

theorem entry_eq_rawGroup (lookup : Str → Option Str) (items : List FeedbackItem) :
    ∀ e ∈ items.foldl (insertFb lookup) [], e.2 = rawGroup lookup items e.1 := by
  intro e he
  have hnd : (keysOf (items.foldl (insertFb lookup) [])).Nodup :=
    keysOf_foldl_nodup lookup items [] (by simp [keysOf])
  have hl := mem_entry_lookupA _ hnd e.1 e.2 (by simpa using he)
  rw [lookupA_foldl lookup items [] e.1, lookupA_nil] at hl
  unfold rawGroup
  cases hf : items.filter (fun it => itemKey it = e.1) with
  | nil =>
    rw [hf] at hl
    cases hl
  | cons it0 r =>
    rw [hf] at hl
    unfold groupOfList at hl
    injection hl with hl1
    exact hl1.symm

theorem mem_keys_iff_filter (lookup : Str → Option Str) (items : List FeedbackItem)
    (k : Str) :
    k ∈ keysOf (items.foldl (insertFb lookup) []) ↔
      items.filter (fun it => itemKey it = k) ≠ [] := by
  have h1 := lookupA_eq_none_iff (items.foldl (insertFb lookup) []) k
  rw [lookupA_foldl lookup items [] k, lookupA_nil] at h1
  constructor
  · intro hk hf
    rw [hf] at h1
    exact (h1.mp rfl) hk
  · intro hf
    by_contra hk
    cases hfil : items.filter (fun it => itemKey it = k) with
    | nil => exact hf hfil
    | cons it0 r =>
      rw [hfil] at h1
      have := h1.mpr hk
      unfold groupOfList at this
      cases this

theorem groupKey_rawGroup (lookup : Str → Option Str) (items : List FeedbackItem)
    (k : Str) (h : items.filter (fun it => itemKey it = k) ≠ []) :
    groupKey (rawGroup lookup items k) = k := by
  cases hf : items.filter (fun it => itemKey it = k) with
  | nil => exact absurd hf h
  | cons it0 r =>
    have hit0 : itemKey it0 = k := by
      have hmem : it0 ∈ items.filter (fun it => itemKey it = k) :=
        hf ▸ List.mem_cons_self it0 r
      simpa using (List.mem_filter.mp hmem).2
    have hg : rawGroup lookup items k =
        ⟨it0.feedback.resume_id, labelFor lookup it0.feedback.resume_id, it0 :: r⟩ := by
      unfold rawGroup
      rw [hf]
    rw [hg, ← hit0]
    rfl

theorem loadHistoryGroups_eq (lookup : Str → Option Str) (items : List FeedbackItem) :
    loadHistoryGroups lookup items =
      sortLe groupLe ((keysOf (items.foldl (insertFb lookup) [])).map
        (fun k => sortGroupItems (rawGroup lookup items k))) := by
  have h1 : loadHistoryGroups lookup items =
      sortLe groupLe (((items.foldl (insertFb lookup) []).map Prod.snd).map
        sortGroupItems) := rfl
  rw [h1]
  congr 1
  rw [List.map_map]
  rw [show keysOf (items.foldl (insertFb lookup) []) =
      (items.foldl (insertFb lookup) []).map Prod.fst from rfl]
  rw [List.map_map]
  exact List.map_congr_left (fun e he => by
    show sortGroupItems e.2 = sortGroupItems (rawGroup lookup items e.1)
    rw [entry_eq_rawGroup lookup items e he])

/-! ## Claim theorems -/

/-- C10: for every integer limit argument, `listMyResumeFeedback` requests a
limit clamped into the inclusive range 1..100 (values below 1 become 1,
values above 100 become 100, in-range values pass through) and the default
limit is 20. -/
theorem listMyResumeFeedback_clamps_limit (limit : Int) :
    1 ≤ safeFeedbackLimit limit ∧ safeFeedbackLimit limit ≤ 100 ∧
    (limit < 1 → safeFeedbackLimit limit = 1) ∧
    (100 < limit → safeFeedbackLimit limit = 100) ∧
    (1 ≤ limit → limit ≤ 100 → safeFeedbackLimit limit = limit) ∧
    safeFeedbackLimit defaultFeedbackLimit = 20 := by
  unfold safeFeedbackLimit defaultFeedbackLimit
  refine ⟨?_, ?_, ?_, ?_, ?_, ?_⟩ <;>
    simp only [max_def, min_def] <;> split_ifs <;> omega

/-- C10 witness: the clamp at the concrete limits 150 and 0. -/
theorem listMyResumeFeedback_clamps_limit_witness :
    safeFeedbackLimit 150 = 100 ∧ safeFeedbackLimit 0 = 1 :=
  ⟨(listMyResumeFeedback_clamps_limit 150).2.2.2.1 (by norm_num),
   (listMyResumeFeedback_clamps_limit 0).2.2.1 (by norm_num)⟩

/-- C6: the claim that no reachable state holds two live byte-stream handles
for the slot is violated by the code: resolving a PDF document (creating
handle 0) and then a non-PDF document whose server-rendered preview is a PDF
runs the plain `setPdfUrl(null)` of ResumePage.tsx line 113, which drops
handle 0 without revoking it, then creates handle 1 — after which both
handles are live while only handle 1 is current. -/
theorem slot_leaks_two_live_handles :
    (runSlot [.pdfDoc true, .nonPdfPreviewPdf]).live = [0, 1] ∧
    (runSlot [.pdfDoc true, .nonPdfPreviewPdf]).pdfUrl = some 1 := by
  constructor <;> rfl

/-- C9: the claim that the display always reflects the last-issued resolve is
violated: `loadResumePreview` has no generation counter or cancellation, so
each completion unconditionally overwrites the slot.  With two overlapping
invocations whose fetches complete in reverse issue order, the completion
arriving second (handle 1 — the first-issued invocation, whose fetch
resolved last) is what remains displayed, not the last-issued invocation's
artifact (handle 0, which arrived first and was then overwritten). -/
theorem stale_completion_overwrites_newer :
    (runSlot [.pdfDoc true]).pdfUrl = some 0 ∧
    (runSlot [.pdfDoc true, .pdfDoc true]).pdfUrl = some 1 := by
  constructor <;> rfl

/-- C7: the upload promise rejects with a typed error whose status is 0
exactly when the transport fired `onerror` (no response reached the caller,
given that a delivered response carries a real HTTP status of at least 100),
whose message on a rejected response is the structured payload's string
`detail` when present, otherwise the transport status text, with the generic
`Upload failed` fallback when the status text is empty. -/
theorem uploadResult_error_contract (o : UploadOutcome) (statusText : Str)
    (hResp : ∀ s r, o = .onload s r → 100 ≤ s) :
    (∀ e, uploadResult o statusText = .error e → (e.status = 0 ↔ o = .onerror)) ∧
    (∀ s body, o = .onload s (some body) → ¬(200 ≤ s ∧ s < 300) →
      uploadResult o statusText =
        .error ⟨s, match body.detail with
          | some (.str m) => m
          | _ => if statusText.isEmpty then uploadFailedMsg s else statusText⟩) ∧
    (∀ s, o = .onload s none →
      uploadResult o statusText =
        .error ⟨s, if statusText.isEmpty then uploadFailedMsg s else statusText⟩) ∧
    (o = .onerror →
      uploadResult o statusText =
        .error ⟨0, strOf "Network error while uploading resume"⟩) := by
  refine ⟨?_, ?_, ?_, ?_⟩
  · intro e he
    cases o with
    | onerror =>
      simp only [uploadResult] at he
      cases he
      simp
    | onload s r =>
      have hs : 100 ≤ s := hResp s r rfl
      constructor
      · intro h0
        exfalso
        cases r with
        | none =>
          simp only [uploadResult] at he
          cases he
          simp only at h0
          omega
        | some body =>
          simp only [uploadResult] at he
          by_cases h2 : (200 ≤ s && s < 300) = true
          · rw [if_pos h2] at he
            cases he
          · rw [if_neg h2] at he
            cases he
            simp only at h0
            omega
      · intro h
        cases h
  · intro s body ho h2
    subst ho
    simp only [uploadResult]
    rw [if_neg (by simpa [Bool.and_eq_true, decide_eq_true_iff] using h2)]
  · intro s ho
    subst ho
    rfl
  · intro ho
    subst ho
    rfl

/-- C7 witness: a 400 response with a string detail, and a pure network
failure, at concrete inputs. -/
theorem uploadResult_error_contract_witness :
    uploadResult (.onload 400 (some ⟨some (.str (strOf "Only PDF allowed"))⟩))
        (strOf "Bad Request") =
      .error ⟨400, strOf "Only PDF allowed"⟩ :=
  ((uploadResult_error_contract
      (.onload 400 (some ⟨some (.str (strOf "Only PDF allowed"))⟩))
      (strOf "Bad Request")
      (by intro s r h; cases h; omega)).2.1
    400 ⟨some (.str (strOf "Only PDF allowed"))⟩ rfl (by omega))

/-- C1: for a non-PDF document whose server-rendered alternate preview fetch
fails and whose client-side conversion yields empty content, if the
previously extracted text cleans to a non-empty string then the resolver
shows the `PlainExcerpt` of that cleaned text, not an `Unavailable` state. -/
theorem resolve_falls_back_to_plain_excerpt
    (d : ResumeDetailM) (b : Bool) (msg : Str) (conv : Option (Option Str)) (t : Str)
    (hnp : isPdfDoc d = false)
    (hconv : conv = none ∨ conv = some none ∨
      ∃ v, conv = some (some v) ∧ (trimBoth v).isEmpty = true)
    (hclean : cleanExtractedPreview d.extracted_text = some t) :
    resolve d b msg none conv = .PlainExcerpt t := by
  unfold resolve
  rw [hnp]
  simp only [Bool.false_eq_true, if_false]
  rcases hconv with h | h | ⟨v, hv, he⟩
  · simp [h, convArtifact, fallbackArtifact, hclean]
  · simp [h, convArtifact, fallbackArtifact, hclean]
  · simp [hv, he, convArtifact, fallbackArtifact, hclean]

/-- C1 witness: the `resume.doc` document of the specification's scenario,
with a failed alternate-preview fetch and a failed conversion. -/
theorem resolve_falls_back_to_plain_excerpt_witness :
    resolve docResumeDoc true [] none none =
      .PlainExcerpt (strOf "PROFESSIONAL EXPERIENCE\nLed a team of engineers building search tools") :=
  resolve_falls_back_to_plain_excerpt docResumeDoc true [] none
    (strOf "PROFESSIONAL EXPERIENCE\nLed a team of engineers building search tools")
    (by decide) (Or.inl rfl) (by decide)

/-- C2: the Noise Classifier is a fixed point on its own output — whenever
`clean x` is non-null, cleaning the cleaned text again returns it unchanged
(no line of a cleaned output is itself dropped or rejected on a second
run). -/
theorem cleanSome_eq (v : Str) :
    cleanExtractedPreview (some v) =
      if v.isEmpty = true then none
      else
        if (joinNl (cleanLoop ((splitOnNl (normalizeNewlines v)).map trimEnd) [])).isEmpty = true
        then none
        else some (joinNl (cleanLoop ((splitOnNl (normalizeNewlines v)).map trimEnd) [])) := rfl

theorem clean_idempotent (x : Option Str) (y : Str)
    (h : cleanExtractedPreview x = some y) :
    cleanExtractedPreview (some y) = some y := by
  match x with
  | none => exact absurd h (by simp [cleanExtractedPreview])
  | some v =>
    rw [cleanSome_eq v] at h
    by_cases hv : v.isEmpty = true
    · rw [if_pos hv] at h
      cases h
    · rw [if_neg hv] at h
      set N := normalizeNewlines v with hN
      set rawLines := (splitOnNl N).map trimEnd with hraw
      set cleaned := cleanLoop rawLines [] with hcl
      by_cases hj : (joinNl cleaned).isEmpty = true
      · rw [if_pos hj] at h
        cases h
      · rw [if_neg hj] at h
        have hy : y = joinNl cleaned := (Option.some.injEq _ _).mp h.symm
        have hprops : ∀ t ∈ cleaned, trimBoth t = t ∧ t.isEmpty = false ∧
            hasHardNoise t = false ∧ rejectsLine t = false ∧
            nlChar ∉ t ∧ crChar ∉ t := by
          intro t ht
          rcases cleanLoop_mem rawLines [] t ht with h0 | ⟨l, hl, heq, hne, hnn, hnr⟩
          · cases h0
          · obtain ⟨p, hp, hpe⟩ := List.mem_map.mp hl
            have hnlp : nlChar ∉ p := not_nl_mem_splitOnNl N p hp
            have hcrp : crChar ∉ p := fun hm =>
              cr_not_mem_normalize v (mem_splitOnNl_mem N p crChar hp hm)
            have hl_sub : ∀ {ch : Char}, ch ∈ l → ch ∈ p := by
              intro ch hch
              rw [← hpe] at hch
              exact mem_of_mem_trimEnd hch
            subst heq
            refine ⟨trimBoth_idem l, hne, hnn, hnr, ?_, ?_⟩
            · exact fun hm => hnlp (hl_sub (mem_of_mem_trimBoth hm))
            · exact fun hm => hcrp (hl_sub (mem_of_mem_trimBoth hm))
        have hclne : cleaned ≠ [] := by
          intro hc
          rw [hc] at hj
          exact hj rfl
        subst hy
        rw [cleanSome_eq (joinNl cleaned)]
        rw [if_neg hj]
        have hcr_y : crChar ∉ joinNl cleaned := by
          intro hm
          rcases mem_joinNl cleaned crChar hm with h1 | ⟨t, ht, hxt⟩
          · exact absurd h1 (by simp [crChar, nlChar, Char.ext_iff])
          · exact (hprops t ht).2.2.2.2.2 hxt
        rw [normalize_of_no_cr _ hcr_y]
        rw [splitOnNl_joinNl cleaned hclne (fun t ht => (hprops t ht).2.2.2.2.1)]
        have hmap : cleaned.map trimEnd = cleaned := by
          have h1 : ∀ t ∈ cleaned, trimEnd t = t := by
            intro t ht
            have h2 := (hprops t ht).1
            calc trimEnd t = trimEnd (trimBoth t) := by rw [h2]
              _ = trimBoth t := trimEnd_trimBoth t
              _ = t := h2
          calc cleaned.map trimEnd = cleaned.map id := List.map_congr_left h1
            _ = cleaned := List.map_id cleaned
        rw [hmap]
        rw [cleanLoop_of_clean cleaned
          (fun l hl => ⟨(hprops l hl).1, (hprops l hl).2.1,
            (hprops l hl).2.2.1, (hprops l hl).2.2.2.1⟩) []]
        rw [List.nil_append]
        rw [if_neg hj]

/-- C2 witness: a concrete raw text whose cleaned output re-cleans to
itself. -/
theorem clean_idempotent_witness :
    cleanExtractedPreview
        (some (strOf "EDUCATION\n  B.S. Computer Science  \nxx\n<?xml noise")) =
      some (strOf "EDUCATION\nB.S. Computer Science") ∧
    cleanExtractedPreview (some (strOf "EDUCATION\nB.S. Computer Science")) =
      some (strOf "EDUCATION\nB.S. Computer Science") :=
  ⟨by decide,
   clean_idempotent
     (some (strOf "EDUCATION\n  B.S. Computer Science  \nxx\n<?xml noise"))
     (strOf "EDUCATION\nB.S. Computer Science") (by decide)⟩

/-- Reduction of the filename parser on a present header value. -/
theorem parseSome_eq (v : Str) :
    parseFilenameFromContentDisposition (some v) =
      if v.isEmpty = true then none
      else
        match scanFilename v with
        | none => none
        | some m =>
          match decodeURIComp m with
          | some d => some d
          | none => some m := rfl

/-- C8: filename extraction parses a quoted `filename` parameter or an
extended `filename*` parameter (URL-decoding the captured value, keeping
the raw capture when decoding throws), and when the header is absent or
carries no filename parameter the downloaded file's name falls back to the
synthesized `resume-id.pdf` / `resume-id.bin` name chosen by content-type. -/
theorem filename_extraction_contract (resumeId : Str) (ct : Option Str) :
    (∀ name post : Str, name ≠ [] → (∀ c ∈ name, ¬(c = '"' ∨ c = ';')) → '%' ∉ name →
      parseFilenameFromContentDisposition
        (some (strOf "filename" ++ '=' :: '"' :: (name ++ '"' :: post))) = some name) ∧
    (∀ enc : Str, enc ≠ [] → (∀ c ∈ enc, ¬(c = '"' ∨ c = ';')) →
      parseFilenameFromContentDisposition
        (some (strOf "filename" ++ '*' :: '=' :: (utf8Marker ++ enc))) =
        some (match decodeURIComp enc with
              | some d => d
              | none => enc)) ∧
    (∀ v : Str, strIncludes (lowerStr v) (strOf "filename") = false →
      parseFilenameFromContentDisposition (some v) = none) ∧
    (∀ cd : Option Str, parseFilenameFromContentDisposition cd = none →
      downloadFilename resumeId ct cd = synthesizedName resumeId ct) ∧
    ((match ct with
      | some c => strIncludes c (strOf "pdf")
      | none => false) = true →
      synthesizedName resumeId ct = strOf "resume-" ++ resumeId ++ strOf ".pdf") ∧
    ((match ct with
      | some c => strIncludes c (strOf "pdf")
      | none => false) = false →
      synthesizedName resumeId ct = strOf "resume-" ++ resumeId ++ strOf ".bin") := by
  refine ⟨?_, ?_, ?_, ?_, ?_, ?_⟩
  · intro name post hne hok hnp
    have hcap : captureBody (name ++ '"' :: post) = some name := by
      unfold captureBody
      rw [takeWhile_append_stop _ name '"' post
        (fun c hc => by
          have h1 := hok c hc
          push_neg at h1
          simp [h1.1, h1.2])
        (by decide)]
      rw [if_neg (by simp [hne])]
    have hAE : matchFilenameAt
        (strOf "filename" ++ '=' :: '"' :: (name ++ '"' :: post)) = some name := by
      rw [show matchFilenameAt (strOf "filename" ++ '=' :: '"' :: (name ++ '"' :: post)) =
          (match captureBody (name ++ '"' :: post) with
           | some b => some b
           | none => captureBody ('"' :: (name ++ '"' :: post))) from rfl]
      rw [hcap]
    have hscan := scanFilename_of_matchAt _ _ hAE
    rw [parseSome_eq, if_neg (by
      rw [show (strOf "filename" ++ '=' :: '"' :: (name ++ '"' :: post)).isEmpty = false
        from rfl]
      simp)]
    rw [hscan]
    show (match decodeURIComp name with
          | some d => some d
          | none => some name) = some name
    rw [decodeURIComp_no_pct name hnp]

  · intro enc hne hok
    have hcap : captureBody enc = some enc := by
      unfold captureBody
      rw [takeWhile_all _ enc (fun c hc => by
        have h1 := hok c hc
        push_neg at h1
        simp [h1.1, h1.2])]
      rw [if_neg (by simp [hne])]
    have hAE : matchFilenameAt
        (strOf "filename" ++ '*' :: '=' :: (utf8Marker ++ enc)) = some enc := by
      rw [show matchFilenameAt (strOf "filename" ++ '*' :: '=' :: (utf8Marker ++ enc)) =
          (match captureBody enc with
           | some b => some b
           | none => matchAfterEq.matchAfterQuote (utf8Marker ++ enc)) from rfl]
      rw [hcap]
    have hscan := scanFilename_of_matchAt _ _ hAE
    rw [parseSome_eq, if_neg (by
      rw [show (strOf "filename" ++ '*' :: '=' :: (utf8Marker ++ enc)).isEmpty = false
        from rfl]
      simp)]
    rw [hscan]
    show (match decodeURIComp enc with
          | some d => some d
          | none => some enc) =
      some (match decodeURIComp enc with
            | some d => d
            | none => enc)
    cases hdec : decodeURIComp enc <;> rfl
  · intro v hninc
    rw [parseSome_eq]
    by_cases hv : v.isEmpty = true
    · rw [if_pos hv]
    · rw [if_neg hv]
      cases hscan : scanFilename v with
      | none => rfl
      | some m =>
        exact absurd (scanFilename_includes v m hscan) (by simp [hninc])
  · intro cd h
    unfold downloadFilename
    rw [h]
  · intro h
    unfold synthesizedName
    rw [if_pos h, List.append_assoc (strOf "resume-" ++ resumeId) (strOf ".") (strOf "pdf")]
    rfl
  · intro h
    unfold synthesizedName
    rw [if_neg (by simp [h]),
      List.append_assoc (strOf "resume-" ++ resumeId) (strOf ".") (strOf "bin")]
    rfl

/-- C8 witness: a quoted filename header parses to the quoted name, and an
absent header falls back to the synthesized PDF name, at concrete inputs. -/
theorem filename_extraction_contract_witness :
    parseFilenameFromContentDisposition
        (some (strOf "filename" ++ '=' :: '"' :: (strOf "my resume.pdf" ++ '"' :: []))) =
      some (strOf "my resume.pdf") ∧
    downloadFilename (strOf "abc123") (some (strOf "application/pdf")) none =
      synthesizedName (strOf "abc123") (some (strOf "application/pdf")) :=
  ⟨(filename_extraction_contract (strOf "abc123") (some (strOf "application/pdf"))).1
      (strOf "my resume.pdf") [] (by decide) (by decide) (by decide),
   (filename_extraction_contract (strOf "abc123") (some (strOf "application/pdf"))).2.2.2.1
      none rfl⟩

/-- C4: the aggregator partitions snapshots by source-document key (with the
sentinel key for document-less snapshots): every snapshot lands in a group
whose key matches its own, groups have pairwise-distinct keys, snapshots
within a group are ordered by creation timestamp descending, groups are
ordered by their newest snapshot's timestamp descending; and on the concrete
input [A(doc 1, t=05), B(doc 1, t=10), C(doc 2, t=07)] the result is the
doc-1 group [B, A] followed by the doc-2 group [C]. -/
theorem feedback_history_grouping :
    (∀ (lookup : Str → Option Str) (items : List FeedbackItem),
      (∀ g ∈ loadHistoryGroups lookup items,
        ∀ x ∈ g.feedbackItems, itemKey x = groupKey g) ∧
      (∀ x ∈ items, ∃ g ∈ loadHistoryGroups lookup items, x ∈ g.feedbackItems) ∧
      ((loadHistoryGroups lookup items).map groupKey).Nodup ∧
      (∀ g ∈ loadHistoryGroups lookup items,
        g.feedbackItems.Pairwise (fun a b => itemLe a b = true)) ∧
      (loadHistoryGroups lookup items).Pairwise (fun a b => groupLe a b = true)) ∧
    loadHistoryGroups lookupNone [exItemA, exItemB, exItemC] =
      [⟨some (strOf "1"), strOf "Resume (1)", [exItemB, exItemA]⟩,
       ⟨some (strOf "2"), strOf "Resume (2)", [exItemC]⟩] := by
  constructor
  · intro lookup items
    have heq := loadHistoryGroups_eq lookup items
    set mF := items.foldl (insertFb lookup) [] with hmF
    set gl := (keysOf mF).map (fun k => sortGroupItems (rawGroup lookup items k)) with hgl
    have hperm : (sortLe groupLe gl).Perm gl := sortLe_perm groupLe gl
    have hmem : ∀ g, g ∈ loadHistoryGroups lookup items ↔ g ∈ gl := by
      intro g
      rw [heq]
      exact hperm.mem_iff
    refine ⟨?_, ?_, ?_, ?_, ?_⟩
    · intro g hg x hx
      obtain ⟨k, hk, hgk⟩ := List.mem_map.mp ((hmem g).mp hg)
      subst hgk
      have hx2 : x ∈ (rawGroup lookup items k).feedbackItems :=
        (sortLe_perm itemLe (rawGroup lookup items k).feedbackItems).mem_iff.mp hx
      rw [rawGroup_items] at hx2
      have hxk : itemKey x = k := by simpa using (List.mem_filter.mp hx2).2
      rw [show groupKey (sortGroupItems (rawGroup lookup items k)) =
          groupKey (rawGroup lookup items k) from rfl]
      rw [groupKey_rawGroup lookup items k ((mem_keys_iff_filter lookup items k).mp hk),
        hxk]
    · intro x hx
      have hxf : x ∈ items.filter (fun it => itemKey it = itemKey x) :=
        List.mem_filter.mpr ⟨hx, by simp⟩
      have hfne : items.filter (fun it => itemKey it = itemKey x) ≠ [] := by
        intro h0
        rw [h0] at hxf
        cases hxf
      have hkk : itemKey x ∈ keysOf mF :=
        (mem_keys_iff_filter lookup items (itemKey x)).mpr hfne
      refine ⟨sortGroupItems (rawGroup lookup items (itemKey x)), ?_, ?_⟩
      · exact (hmem _).mpr (List.mem_map_of_mem _ hkk)
      · show x ∈ sortLe itemLe (rawGroup lookup items (itemKey x)).feedbackItems
        rw [(sortLe_perm itemLe _).mem_iff, rawGroup_items]
        exact hxf
    · have h3 : ((loadHistoryGroups lookup items).map groupKey).Perm (gl.map groupKey) := by
        rw [heq]
        exact hperm.map groupKey
      have h4 : gl.map groupKey = keysOf mF := by
        rw [hgl, List.map_map]
        calc (keysOf mF).map (groupKey ∘ fun k => sortGroupItems (rawGroup lookup items k))
            = (keysOf mF).map id := List.map_congr_left (fun k hk => by
              show groupKey (sortGroupItems (rawGroup lookup items k)) = id k
              rw [show groupKey (sortGroupItems (rawGroup lookup items k)) =
                  groupKey (rawGroup lookup items k) from rfl]
              exact groupKey_rawGroup lookup items k
                ((mem_keys_iff_filter lookup items k).mp hk))
          _ = keysOf mF := List.map_id _
      have h5 : (keysOf mF).Nodup := keysOf_foldl_nodup lookup items [] (by simp [keysOf])
      exact h3.nodup_iff.mpr (h4 ▸ h5)
    · intro g hg
      obtain ⟨k, hk, hgk⟩ := List.mem_map.mp ((hmem g).mp hg)
      subst hgk
      show (sortLe itemLe (rawGroup lookup items k).feedbackItems).Pairwise _
      exact sortLe_pairwise itemLe itemLe_trans itemLe_total _
    · rw [heq]
      exact sortLe_pairwise groupLe groupLe_trans groupLe_total gl
  · decide

/-- C4 witness: the concrete grouping example evaluated through the
theorem. -/
theorem feedback_history_grouping_witness :
    loadHistoryGroups lookupNone [exItemA, exItemB, exItemC] =
      [⟨some (strOf "1"), strOf "Resume (1)", [exItemB, exItemA]⟩,
       ⟨some (strOf "2"), strOf "Resume (2)", [exItemC]⟩] :=
  feedback_history_grouping.2

/-- C5 counterexample: two snapshots of the same document with tied creation
timestamps.  The stable sorts preserve input order on ties, so permuting the
input permutes the tied snapshots in the output — `group` is not
permutation invariant as the claim states. -/
theorem group_not_permutation_invariant :
    [tieItemA, tieItemB].Perm [tieItemB, tieItemA] ∧
    loadHistoryGroups lookupNone [tieItemA, tieItemB] ≠
      loadHistoryGroups lookupNone [tieItemB, tieItemA] := by
  constructor
  · exact List.Perm.swap tieItemB tieItemA []
  · decide

/-- C5 (amended): the aggregator is a pure deterministic function (re-running
it on the same list yields identical output), and it is permutation
invariant whenever all creation timestamps are pairwise distinct and no
document identifier collides with the internal sentinel key; ties are
instead resolved by stable input order. -/
theorem group_deterministic_and_perm_invariant
    (lookup : Str → Option Str) (items1 items2 : List FeedbackItem)
    (hperm : items1.Perm items2)
    (hnd : (items1.map (fun it => it.feedback.created_at)).Nodup)
    (hsent : ∀ it ∈ items1, it.feedback.resume_id ≠ some sentinelKey) :
    loadHistoryGroups lookup items1 = loadHistoryGroups lookup items1 ∧
    loadHistoryGroups lookup items1 = loadHistoryGroups lookup items2 := by
  refine ⟨rfl, ?_⟩
  have hinj : ∀ a ∈ items1, ∀ b ∈ items1,
      a.feedback.created_at = b.feedback.created_at → a = b := by
    intro a ha b hb hab
    exact List.inj_on_of_nodup_map hnd ha hb hab
  have hridOf : ∀ (it : FeedbackItem), it ∈ items1 →
      it.feedback.resume_id = ridOf (itemKey it) := by
    intro it hit
    cases hr : it.feedback.resume_id with
    | none =>
      have hk : itemKey it = sentinelKey := by
        unfold itemKey
        rw [hr]
      rw [hk]
      unfold ridOf
      rw [if_pos rfl]
    | some r =>
      have hk : itemKey it = r := by
        unfold itemKey
        rw [hr]
      have hne : r ≠ sentinelKey := fun h => hsent it hit (by rw [hr, h])
      rw [hk]
      unfold ridOf
      rw [if_neg hne]
  have hrid2 : ∀ (it : FeedbackItem), it ∈ items2 →
      it.feedback.resume_id = ridOf (itemKey it) :=
    fun it hit => hridOf it (hperm.mem_iff.mpr hit)
  have hpf : ∀ k, (items1.filter (fun it => itemKey it = k)).Perm
      (items2.filter (fun it => itemKey it = k)) := fun k => hperm.filter _
  have hsorted : ∀ k, sortLe itemLe (items1.filter (fun it => itemKey it = k)) =
      sortLe itemLe (items2.filter (fun it => itemKey it = k)) := by
    intro k
    apply sortedPermEqOn itemLe
    · exact (sortLe_perm itemLe _).trans ((hpf k).trans (sortLe_perm itemLe _).symm)
    · exact sortLe_pairwise itemLe itemLe_trans itemLe_total _
    · exact sortLe_pairwise itemLe itemLe_trans itemLe_total _
    · intro a ha b hb hab hba
      have ha1 : a ∈ items1 :=
        List.mem_of_mem_filter ((sortLe_perm itemLe _).mem_iff.mp ha)
      have hb1 : b ∈ items1 :=
        List.mem_of_mem_filter ((sortLe_perm itemLe _).mem_iff.mp hb)
      exact hinj a ha1 b hb1 (strLe_antisymm _ _ hba hab)
  have hcanon : ∀ (its : List FeedbackItem),
      (∀ it ∈ its, it.feedback.resume_id = ridOf (itemKey it)) →
      ∀ k, its.filter (fun it => itemKey it = k) ≠ [] →
      sortGroupItems (rawGroup lookup its k) =
        ⟨ridOf k, labelFor lookup (ridOf k),
         sortLe itemLe (its.filter (fun it => itemKey it = k))⟩ := by
    intro its hr k hne
    cases hf : its.filter (fun it => itemKey it = k) with
    | nil => exact absurd hf hne
    | cons it0 r =>
      have hmem0 : it0 ∈ its.filter (fun it => itemKey it = k) :=
        hf ▸ List.mem_cons_self it0 r
      have hk0 : itemKey it0 = k := by simpa using (List.mem_filter.mp hmem0).2
      have hr0 : it0.feedback.resume_id = ridOf k := by
        rw [hr it0 (List.mem_of_mem_filter hmem0), hk0]
      have hg : rawGroup lookup its k =
          ⟨it0.feedback.resume_id, labelFor lookup it0.feedback.resume_id,
           it0 :: r⟩ := by
        unfold rawGroup
        rw [hf]
      have h2 : sortGroupItems (rawGroup lookup its k) =
          ⟨it0.feedback.resume_id, labelFor lookup it0.feedback.resume_id,
           sortLe itemLe (it0 :: r)⟩ := by
        rw [hg]
        rfl
      rw [h2, hr0, ← hf]
  have hkeys1nd : (keysOf (items1.foldl (insertFb lookup) [])).Nodup :=
    keysOf_foldl_nodup lookup items1 [] (by simp [keysOf])
  have hkeys2nd : (keysOf (items2.foldl (insertFb lookup) [])).Nodup :=
    keysOf_foldl_nodup lookup items2 [] (by simp [keysOf])
  have hkeysperm : (keysOf (items1.foldl (insertFb lookup) [])).Perm
      (keysOf (items2.foldl (insertFb lookup) [])) := by
    rw [List.perm_ext_iff_of_nodup hkeys1nd hkeys2nd]
    intro k
    rw [mem_keys_iff_filter, mem_keys_iff_filter]
    constructor
    · intro h1 h2
      exact h1 ((hpf k).trans (h2 ▸ List.Perm.refl _)).eq_nil
    · intro h1 h2
      exact h1 ((hpf k).symm.trans (h2 ▸ List.Perm.refl _)).eq_nil
  have hmapeq : (keysOf (items1.foldl (insertFb lookup) [])).map
        (fun k => sortGroupItems (rawGroup lookup items1 k)) =
      (keysOf (items1.foldl (insertFb lookup) [])).map
        (fun k => sortGroupItems (rawGroup lookup items2 k)) := by
    apply List.map_congr_left
    intro k hk
    have hne1 : items1.filter (fun it => itemKey it = k) ≠ [] :=
      (mem_keys_iff_filter lookup items1 k).mp hk
    have hne2 : items2.filter (fun it => itemKey it = k) ≠ [] := by
      intro h2
      exact hne1 ((hpf k).trans (h2 ▸ List.Perm.refl _)).eq_nil
    rw [hcanon items1 hridOf k hne1, hcanon items2 hrid2 k hne2, hsorted k]
  have hglperm : ((keysOf (items1.foldl (insertFb lookup) [])).map
        (fun k => sortGroupItems (rawGroup lookup items1 k))).Perm
      ((keysOf (items2.foldl (insertFb lookup) [])).map
        (fun k => sortGroupItems (rawGroup lookup items2 k))) := by
    rw [hmapeq]
    exact hkeysperm.map _
  have htop : ∀ (its : List FeedbackItem) (k : Str),
      its.filter (fun it => itemKey it = k) ≠ [] →
      ∃ i0 ∈ its, itemKey i0 = k ∧
        topCreated (sortGroupItems (rawGroup lookup its k)) =
          i0.feedback.created_at := by
    intro its k hne
    have hitems : (sortGroupItems (rawGroup lookup its k)).feedbackItems =
        sortLe itemLe (its.filter (fun it => itemKey it = k)) := by
      show sortLe itemLe (rawGroup lookup its k).feedbackItems = _
      rw [rawGroup_items]
    cases hs : sortLe itemLe (its.filter (fun it => itemKey it = k)) with
    | nil =>
      have hp := sortLe_perm itemLe (its.filter (fun it => itemKey it = k))
      rw [hs] at hp
      exact absurd hp.symm.eq_nil hne
    | cons i0 r =>
      have hi0mem : i0 ∈ sortLe itemLe (its.filter (fun it => itemKey it = k)) :=
        hs ▸ List.mem_cons_self i0 r
      have hi0f : i0 ∈ its.filter (fun it => itemKey it = k) :=
        (sortLe_perm itemLe _).mem_iff.mp hi0mem
      refine ⟨i0, List.mem_of_mem_filter hi0f,
        by simpa using (List.mem_filter.mp hi0f).2, ?_⟩
      unfold topCreated
      rw [hitems, hs]
  rw [loadHistoryGroups_eq lookup items1, loadHistoryGroups_eq lookup items2]
  apply sortedPermEqOn groupLe
  · exact (sortLe_perm groupLe _).trans (hglperm.trans (sortLe_perm groupLe _).symm)
  · exact sortLe_pairwise groupLe groupLe_trans groupLe_total _
  · exact sortLe_pairwise groupLe groupLe_trans groupLe_total _
  · intro g hg h hh hgh hhg
    have hg1 := (sortLe_perm groupLe _).mem_iff.mp hg
    have hh1 := (sortLe_perm groupLe _).mem_iff.mp hh
    obtain ⟨k, hk, hgk⟩ := List.mem_map.mp hg1
    obtain ⟨k2, hk2, hhk⟩ := List.mem_map.mp hh1
    subst hgk
    subst hhk
    have htopeq : topCreated (sortGroupItems (rawGroup lookup items1 k)) =
        topCreated (sortGroupItems (rawGroup lookup items1 k2)) :=
      strLe_antisymm _ _ hhg hgh
    obtain ⟨i0, hi0, hik, hit⟩ :=
      htop items1 k ((mem_keys_iff_filter lookup items1 k).mp hk)
    obtain ⟨i1, hi1, hik2, hit2⟩ :=
      htop items1 k2 ((mem_keys_iff_filter lookup items1 k2).mp hk2)
    have hii : i0 = i1 := hinj i0 hi0 i1 hi1 (by rw [← hit, ← hit2, htopeq])
    have hkk : k = k2 := by rw [← hik, ← hik2, hii]
    rw [hkk]

/-- C5 witness for the amended theorem: two permutations of a two-snapshot
list with distinct timestamps group identically. -/
theorem group_deterministic_and_perm_invariant_witness :
    loadHistoryGroups lookupNone [exItemA, exItemB] =
      loadHistoryGroups lookupNone [exItemB, exItemA] :=
  (group_deterministic_and_perm_invariant lookupNone [exItemA, exItemB]
    [exItemB, exItemA] (List.Perm.swap exItemB exItemA []) (by decide)
    (by decide)).2

/-- C3: a raw text whose every non-blank line carries a hard-noise marker
cleans to null. -/
theorem clean_all_hard_noise_is_null (v : Str)
    (h : ∀ l ∈ (splitOnNl (normalizeNewlines v)).map trimEnd,
        trimBoth l = [] ∨ hasHardNoise (trimBoth l) = true) :
    cleanExtractedPreview (some v) = none := by
  unfold cleanExtractedPreview
  by_cases he : v.isEmpty
  · simp [he]
  · simp only [he, if_false]
    rw [cleanLoop_all_noise _ h]
    rfl

/-- C3 witness: an extraction consisting only of container debris lines. -/
theorem clean_all_hard_noise_is_null_witness :
    cleanExtractedPreview
      (some (strOf "<?xml version\n\nword/_rels/document.xml.rels\ntheme/theme1.xml")) = none :=
  clean_all_hard_noise_is_null
    (strOf "<?xml version\n\nword/_rels/document.xml.rels\ntheme/theme1.xml")
    (by decide)

end InternHunter
